import Mathlib

/-!
Verification of the process-scheduling simulator (FIFO, LIFO, Round Robin)
from `proyectgofinal/main2.py`.  The scheduler cores are embedded shallowly:
Python ints become `Int`, the float penalty index becomes `Rat`, mutation of
the `resultados` list becomes functional list update, and the unbounded
`while` loops become fuel-indexed recursions returning `Option` (with `none`
for fuel exhaustion or for the `min` of an empty sequence, where Python
would raise).
-/

set_option maxHeartbeats 1000000

/-- The `Proceso` record of `main2.py` (constructor `__init__` fields). -/
structure Proceso where
  id : String
  ti : Int          -- tiempo de llegada
  t : Int           -- tiempo de ejecución
  tf : Int          -- tiempo de finalización (0 = "unset")
  T : Int           -- tiempo de retorno
  E : Int           -- tiempo de espera
  I : Rat           -- índice de penalización (float in Python, Rat here)
  tiempo_restante : Int
  deriving Repr, DecidableEq

/-- `Proceso(id, ti, t)`: the constructor, with all output fields zeroed. -/
def Proceso.nuevo (id : String) (ti t : Int) : Proceso :=
  { id := id, ti := ti, t := t, tf := 0, T := 0, E := 0, I := 0,
    tiempo_restante := t }

/-- Default record, used only for out-of-range `getD` accesses that the
Python code never performs (it would raise `IndexError`). -/
def vacio : Proceso := Proceso.nuevo "" 0 0

instance : Inhabited Proceso := ⟨vacio⟩

/-- The copy `[Proceso(p.id, p.ti, p.t) for p in procesos]` made at the top
of each scheduler. -/
def copia (p : Proceso) : Proceso := Proceso.nuevo p.id p.ti p.t

/-- The input attributes of a record: everything the schedulers read. -/
def entrada (p : Proceso) : String × Int × Int := (p.id, p.ti, p.t)

/-- The metrics-calculator lines shared by the three schedulers: given a
completion time `tf`, set `T = tf - ti`, `E = T - t`, and
`I = t / T if T else 0`. -/
def metricas (p : Proceso) (tf : Int) : Proceso :=
  let T := tf - p.ti
  let E := T - p.t
  let I : Rat := if T ≠ 0 then (p.t : Rat) / (T : Rat) else 0
  { p with tf := tf, T := T, E := E, I := I }

/-- Executing a process to completion in FIFO/LIFO:
`tf = reloj + t` followed by the metric lines. -/
def ejecutar (p : Proceso) (reloj : Int) : Proceso := metricas p (reloj + p.t)

/-- A process qualifies for selection when it is unfinished (`not proc.tf`,
i.e. `tf = 0`) and has arrived (`ti ≤ reloj`). -/
def listo (reloj : Int) (p : Proceso) : Bool := p.tf == 0 && p.ti ≤ reloj

/-- FIFO selection-and-execution: scan the list in order, execute the first
qualifying process in place, and return the updated list together with the
new clock value (`reloj = proceso_actual.tf`); `none` when no process
qualifies. -/
def runFirst (reloj : Int) : List Proceso → Option (List Proceso × Int)
  | [] => none
  | p :: resto =>
    if listo reloj p then
      let p' := ejecutar p reloj
      some (p' :: resto, p'.tf)
    else
      match runFirst reloj resto with
      | some (resto', reloj') => some (p :: resto', reloj')
      | none => none

/-- LIFO selection-and-execution: scan `reversed(resultados)`, i.e. prefer
the last qualifying process of the list, executing it in place. -/
def runLast (reloj : Int) : List Proceso → Option (List Proceso × Int)
  | [] => none
  | p :: resto =>
    match runLast reloj resto with
    | some (resto', reloj') => some (p :: resto', reloj')
    | none =>
      if listo reloj p then
        let p' := ejecutar p reloj
        some (p' :: resto, p'.tf)
      else none

/-- `min(p.ti for p in resultados if not p.tf)`: `none` when the generator
is empty (Python raises `ValueError` there). -/
def minLlegadaPendiente (res : List Proceso) : Option Int :=
  match (res.filter (fun p => p.tf == 0)).map (fun p => p.ti) with
  | [] => none
  | x :: xs => some (xs.foldl min x)

/-- The shared FIFO/LIFO outer `while completados < len(procesos)` loop,
parameterised by the selection pass (`runFirst` for FIFO, `runLast` for
LIFO) and a fuel bound on the number of iterations. -/
def cicloFL (sel : Int → List Proceso → Option (List Proceso × Int)) :
    Nat → List Proceso → Int → Nat → Option (List Proceso)
  | 0, _, _, _ => none
  | fuel+1, res, reloj, comp =>
    if comp < res.length then
      match sel reloj res with
      | some (res', reloj') => cicloFL sel fuel res' reloj' (comp + 1)
      | none =>
        match minLlegadaPendiente res with
        | some m => cicloFL sel fuel res m comp
        | none => none
    else some res

/-- `fifo(procesos)` from `main2.py` (fuel-indexed). -/
def fifo (procesos : List Proceso) (fuel : Nat) : Option (List Proceso) :=
  cicloFL runFirst fuel (procesos.map copia) 0 0

/-- `lifo(procesos)` from `main2.py` (fuel-indexed). -/
def lifo (procesos : List Proceso) (fuel : Nat) : Option (List Proceso) :=
  cicloFL runLast fuel (procesos.map copia) 0 0

/-- State of the Round Robin loop in `round_robin(procesos, quantum)`.
`cuenta` is a ghost field, absent from the source: it counts how many times
each index has been popped from the ready queue (it influences nothing). -/
structure RRState where
  resultados : List Proceso
  tiempos_restantes : List Int
  reloj : Int
  completados : Nat
  cola : List Nat
  indice : Nat
  cuenta : List Nat
  deriving Repr, DecidableEq

/-- Entry `i` of the remaining-time list (`tiempos_restantes[i]`). -/
def getI (l : List Int) (i : Nat) : Int := l.getD i 0

/-- Entry `i` of a process list (`resultados[i]`). -/
def getP (l : List Proceso) (i : Nat) : Proceso := l.getD i vacio

/-- The admit phase:
`while indice < len(resultados) and resultados[indice].ti <= reloj:` append
`indice` to the queue when its remaining time is positive, then advance the
cursor.  The structural counter `k` is always called with
`res.length - indice`, which bounds the iteration count exactly. -/
def encolarLlegadas (res : List Proceso) (rest : List Int) (reloj : Int) :
    Nat → List Nat → Nat → List Nat × Nat
  | 0, cola, indice => (cola, indice)
  | k+1, cola, indice =>
    if indice < res.length ∧ (getP res indice).ti ≤ reloj then
      encolarLlegadas res rest reloj k
        (if 0 < getI rest indice then cola ++ [indice] else cola) (indice + 1)
    else (cola, indice)

/-- One iteration of the Round Robin `while` body: admit arrivals, then
either advance the clock by 1 (empty queue) or pop the queue head, run it
for `min(quantum, tiempos_restantes[actual])`, and finish or re-enqueue. -/
def rrStep (q : Int) (s : RRState) : RRState :=
  let r := encolarLlegadas s.resultados s.tiempos_restantes s.reloj
    (s.resultados.length - s.indice) s.cola s.indice
  match r with
  | ([], indice1) => { s with cola := [], indice := indice1, reloj := s.reloj + 1 }
  | (actual :: colaResto, indice1) =>
    let tiempo_ejecucion := min q (getI s.tiempos_restantes actual)
    -- tiempos_restantes[actual] -= tiempo_ejecucion; reloj += tiempo_ejecucion
    let restante1 := getI s.tiempos_restantes actual - tiempo_ejecucion
    let rest1 := s.tiempos_restantes.set actual restante1
    let reloj1 := s.reloj + tiempo_ejecucion
    let cuenta1 := s.cuenta.set actual (s.cuenta.getD actual 0 + 1)
    if restante1 = 0 then
      { resultados := s.resultados.set actual (metricas (getP s.resultados actual) reloj1)
        tiempos_restantes := rest1, reloj := reloj1,
        completados := s.completados + 1, cola := colaResto, indice := indice1,
        cuenta := cuenta1 }
    else
      { s with tiempos_restantes := rest1, reloj := reloj1,
               cola := colaResto ++ [actual], indice := indice1,
               cuenta := cuenta1 }

/-- The `while completados < len(procesos)` loop of `round_robin`,
fuel-indexed. -/
def rrLoop (q : Int) : Nat → RRState → Option RRState
  | 0, _ => none
  | fuel+1, s =>
    if s.completados < s.resultados.length then rrLoop q fuel (rrStep q s)
    else some s

/-- The initial Round Robin state: fresh copies, remaining times `[p.t for p
in resultados]`, clock 0, empty queue, cursor 0. -/
def estadoInicial (procesos : List Proceso) : RRState :=
  { resultados := procesos.map copia
    tiempos_restantes := (procesos.map copia).map (fun p => p.t)
    reloj := 0, completados := 0, cola := [], indice := 0
    cuenta := List.replicate procesos.length 0 }

/-- `round_robin(procesos, quantum)` from `main2.py` (fuel-indexed). -/
def round_robin (procesos : List Proceso) (quantum : Int) (fuel : Nat) :
    Option (List Proceso) :=
  (rrLoop quantum fuel (estadoInicial procesos)).map (fun s => s.resultados)

-- Concrete inputs used by the spec's scenarios.

/-- Scenario 1 input: a single process `("A", 0, 5)`. -/
def escenario1 : List Proceso := [Proceso.nuevo "A" 0 5]

/-- Scenario 2 input: `[("A",0,3), ("B",5,2)]`. -/
def escenario2 : List Proceso := [Proceso.nuevo "A" 0 3, Proceso.nuevo "B" 5 2]

/-- Scenario 3 input: `[("A",0,3), ("B",0,2)]`. -/
def escenario3 : List Proceso := [Proceso.nuevo "A" 0 3, Proceso.nuevo "B" 0 2]

/-- Scenario 4 input: `[("A",0,5), ("B",1,3)]`. -/
def escenario4 : List Proceso := [Proceso.nuevo "A" 0 5, Proceso.nuevo "B" 1 3]

example : fifo escenario1 4 =
    some [{ id := "A", ti := 0, t := 5, tf := 5, T := 5, E := 0, I := 1,
            tiempo_restante := 5 }] := by with_unfolding_all rfl

example : (fifo escenario2 6).map (fun l => l.map Proceso.tf) = some [3, 7] := by
  with_unfolding_all rfl

example : (lifo escenario3 6).map (fun l => l.map Proceso.tf) = some [5, 2] := by
  with_unfolding_all rfl

example : (round_robin escenario4 2 9).map (fun l => l.map Proceso.tf) =
    some [7, 8] := by with_unfolding_all rfl

example : round_robin escenario4 2 9 =
    some [{ id := "A", ti := 0, t := 5, tf := 7, T := 7, E := 2, I := 5/7,
            tiempo_restante := 5 },
          { id := "B", ti := 1, t := 3, tf := 8, T := 7, E := 4, I := 3/7,
            tiempo_restante := 3 }] := by with_unfolding_all rfl

example : (rrLoop 2 9 (estadoInicial escenario4)).map RRState.cuenta =
    some [3, 2] := by with_unfolding_all rfl

/-! ### Basic facts about the metric computation and selection passes -/

theorem metricas_tf (p : Proceso) (x : Int) : (metricas p x).tf = x := rfl

theorem metricas_ti (p : Proceso) (x : Int) : (metricas p x).ti = p.ti := rfl

theorem metricas_t (p : Proceso) (x : Int) : (metricas p x).t = p.t := rfl

theorem metricas_entrada (p : Proceso) (x : Int) :
    entrada (metricas p x) = entrada p := rfl

theorem ejecutar_tf (p : Proceso) (reloj : Int) :
    (ejecutar p reloj).tf = reloj + p.t := rfl

theorem listo_iff (reloj : Int) (p : Proceso) :
    listo reloj p = true ↔ p.tf = 0 ∧ p.ti ≤ reloj := by
  simp [listo]

theorem listo_false_iff (reloj : Int) (p : Proceso) :
    listo reloj p = false ↔ ¬(p.tf = 0 ∧ p.ti ≤ reloj) := by
  rw [← listo_iff reloj p]
  simp

/-- A process selected, executed and finished under clock `reloj ≥ 0`
satisfies every derived-metric equation. -/
theorem terminadoSpec_ejecutar (p : Proceso) (reloj : Int)
    (hreloj : 0 ≤ reloj) (hti : p.ti ≤ reloj) (ht : 0 < p.t) :
    0 < (ejecutar p reloj).tf ∧
    (ejecutar p reloj).ti + (ejecutar p reloj).t ≤ (ejecutar p reloj).tf ∧
    (ejecutar p reloj).T = (ejecutar p reloj).tf - (ejecutar p reloj).ti ∧
    (ejecutar p reloj).E = (ejecutar p reloj).T - (ejecutar p reloj).t ∧
    (ejecutar p reloj).t ≤ (ejecutar p reloj).T ∧
    (ejecutar p reloj).I =
      ((ejecutar p reloj).t : Rat) / ((ejecutar p reloj).T : Rat) := by
  have hT : reloj + p.t - p.ti ≠ 0 := by omega
  constructor
  · show 0 < reloj + p.t
    omega
  refine ⟨by show p.ti + p.t ≤ reloj + p.t; omega, rfl, rfl, ?_, ?_⟩
  · show p.t ≤ reloj + p.t - p.ti
    omega
  · show (if reloj + p.t - p.ti ≠ 0 then (p.t : Rat) / ((reloj + p.t - p.ti : Int) : Rat) else 0) = _
    rw [if_pos hT]
    rfl

theorem runFirst_eq_none (reloj : Int) :
    ∀ ps : List Proceso, runFirst reloj ps = none ↔ ∀ p ∈ ps, listo reloj p = false
  | [] => by simp [runFirst]
  | p :: resto => by
    by_cases hl : listo reloj p
    · simp [runFirst, hl]
    · cases hr : runFirst reloj resto with
      | none =>
        have ih := (runFirst_eq_none reloj resto).mp hr
        simp [runFirst, hl, hr]
        exact fun x hx => ih x hx
      | some pr =>
        constructor
        · intro h
          simp [runFirst, hl, hr] at h
        · intro hall
          rw [(runFirst_eq_none reloj resto).mpr fun x hx => hall x (List.mem_cons_of_mem p hx)] at hr
          exact absurd hr (by simp)

theorem runLast_eq_none (reloj : Int) :
    ∀ ps : List Proceso, runLast reloj ps = none ↔ ∀ p ∈ ps, listo reloj p = false
  | [] => by simp [runLast]
  | p :: resto => by
    cases hr : runLast reloj resto with
    | none =>
      have ih := (runLast_eq_none reloj resto).mp hr
      by_cases hl : listo reloj p
      · simp [runLast, hl, hr]
      · simp [runLast, hl, hr]
        exact fun x hx => ih x hx
    | some pr =>
      constructor
      · intro h
        simp [runLast, hr] at h
      · intro hall
        rw [(runLast_eq_none reloj resto).mpr fun x hx => hall x (List.mem_cons_of_mem p hx)] at hr
        exact absurd hr (by simp)

theorem runFirst_some (reloj : Int) :
    ∀ (ps : List Proceso) (pr : List Proceso × Int), runFirst reloj ps = some pr →
      ∃ l1 p l2, ps = l1 ++ p :: l2 ∧ (∀ x ∈ l1, listo reloj x = false) ∧
        listo reloj p = true ∧
        pr.1 = l1 ++ ejecutar p reloj :: l2 ∧ pr.2 = reloj + p.t
  | [], pr => by simp [runFirst]
  | p :: resto, pr => by
    by_cases hl : listo reloj p
    · intro h
      simp [runFirst, hl] at h
      exact ⟨[], p, resto, rfl, by simp, hl, by simp [← h], by simp [← h, ejecutar_tf]⟩
    · cases hr : runFirst reloj resto with
      | none => intro h; simp [runFirst, hl, hr] at h
      | some pr' =>
        intro h
        simp [runFirst, hl, hr] at h
        obtain ⟨l1, q, l2, hsplit, hl1, hq, h1, h2⟩ := runFirst_some reloj resto pr' hr
        refine ⟨p :: l1, q, l2, by simp [hsplit], ?_, hq, ?_, ?_⟩
        · intro x hx
          rcases List.mem_cons.mp hx with hx | hx
          · simpa [hx] using hl
          · exact hl1 x hx
        · simp [← h, h1]
        · simp [← h, h2]

theorem runLast_some (reloj : Int) :
    ∀ (ps : List Proceso) (pr : List Proceso × Int), runLast reloj ps = some pr →
      ∃ l1 p l2, ps = l1 ++ p :: l2 ∧ (∀ x ∈ l2, listo reloj x = false) ∧
        listo reloj p = true ∧
        pr.1 = l1 ++ ejecutar p reloj :: l2 ∧ pr.2 = reloj + p.t
  | [], pr => by simp [runLast]
  | p :: resto, pr => by
    cases hr : runLast reloj resto with
    | some pr' =>
      intro h
      simp [runLast, hr] at h
      obtain ⟨l1, q, l2, hsplit, hl2, hq, h1, h2⟩ := runLast_some reloj resto pr' hr
      refine ⟨p :: l1, q, l2, by simp [hsplit], hl2, hq, by simp [← h, h1], by simp [← h, h2]⟩
    | none =>
      by_cases hl : listo reloj p
      · intro h
        simp [runLast, hl, hr] at h
        refine ⟨[], p, resto, rfl, (runLast_eq_none reloj resto).mp hr, hl, by simp [← h],
          by simp [← h, ejecutar_tf]⟩
      · intro h
        simp [runLast, hl, hr] at h

/-! ### The idle-skip minimum -/

theorem foldl_min_le_init : ∀ (xs : List Int) (x : Int), xs.foldl min x ≤ x
  | [], x => le_refl x
  | y :: xs, x =>
    le_trans (foldl_min_le_init xs (min x y)) (min_le_left x y)

theorem foldl_min_le_mem :
    ∀ (xs : List Int) (x y : Int), y ∈ xs → xs.foldl min x ≤ y
  | [], _, y, hy => by simp at hy
  | z :: xs, x, y, hy => by
    rcases List.mem_cons.mp hy with h | h
    · subst h
      exact le_trans (foldl_min_le_init xs (min x y)) (min_le_right x y)
    · exact foldl_min_le_mem xs (min x z) y h

theorem foldl_min_mem :
    ∀ (xs : List Int) (x : Int), xs.foldl min x = x ∨ xs.foldl min x ∈ xs
  | [], x => Or.inl rfl
  | y :: xs, x => by
    have hstep : (y :: xs).foldl min x = xs.foldl min (min x y) := rfl
    rcases foldl_min_mem xs (min x y) with h | h
    · rcases min_choice x y with hc | hc
      · exact Or.inl (by rw [hstep, h, hc])
      · exact Or.inr (by rw [hstep, h, hc]; exact List.mem_cons_self y xs)
    · exact Or.inr (by rw [hstep]; exact List.mem_cons_of_mem y h)

theorem minLlegadaPendiente_isSome (res : List Proceso)
    (h : ∃ p ∈ res, p.tf = 0) : (minLlegadaPendiente res).isSome := by
  obtain ⟨p, hp, htf⟩ := h
  have : p ∈ res.filter (fun p => p.tf == 0) :=
    List.mem_filter.mpr ⟨hp, by simp [htf]⟩
  unfold minLlegadaPendiente
  cases hf : (res.filter (fun p => p.tf == 0)).map (fun p => p.ti) with
  | nil =>
    rw [List.map_eq_nil_iff] at hf
    rw [hf] at this
    simp at this
  | cons x xs => simp

theorem minLlegadaPendiente_spec (res : List Proceso) (m : Int)
    (h : minLlegadaPendiente res = some m) :
    (∃ p ∈ res, p.tf = 0 ∧ p.ti = m) ∧
      ∀ p ∈ res, p.tf = 0 → m ≤ p.ti := by
  unfold minLlegadaPendiente at h
  cases hf : (res.filter (fun p => p.tf == 0)).map (fun p => p.ti) with
  | nil => rw [hf] at h; exact absurd h (by simp)
  | cons x xs =>
    rw [hf] at h
    have hm : m = xs.foldl min x := by
      simpa using h.symm
    constructor
    · rcases foldl_min_mem xs x with he | he
      · have : m ∈ x :: xs := by rw [hm, he]; exact List.mem_cons_self x xs
        rw [← hf] at this
        obtain ⟨p, hp, hti⟩ := List.mem_map.mp this
        have := List.mem_filter.mp hp
        exact ⟨p, this.1, by simpa using this.2, hti⟩
      · have : m ∈ x :: xs := by rw [hm]; exact List.mem_cons_of_mem x he
        rw [← hf] at this
        obtain ⟨p, hp, hti⟩ := List.mem_map.mp this
        have := List.mem_filter.mp hp
        exact ⟨p, this.1, by simpa using this.2, hti⟩
    · intro p hp htf
      have hmem : p.ti ∈ x :: xs := by
        rw [← hf]
        exact List.mem_map_of_mem _ (List.mem_filter.mpr ⟨hp, by simp [htf]⟩)
      rw [hm]
      rcases List.mem_cons.mp hmem with hh | hh
      · rw [hh]
        exact foldl_min_le_init xs x
      · exact foldl_min_le_mem xs x p.ti hh

/-! ### The FIFO/LIFO loop invariant -/

/-- Preconditions on the input list: arrivals nonnegative, bursts positive. -/
def precondLista (ps : List Proceso) : Prop := ∀ p ∈ ps, 0 ≤ p.ti ∧ 0 < p.t

/-- A record whose execution has finished, with all metrics set. -/
def terminado (p : Proceso) : Prop :=
  0 < p.tf ∧ p.ti + p.t ≤ p.tf ∧ p.T = p.tf - p.ti ∧ p.E = p.T - p.t ∧
    p.t ≤ p.T ∧ p.I = (p.t : Rat) / (p.T : Rat)

/-- Number of unfinished records. -/
def pendCount (res : List Proceso) : Nat := res.countP (fun p => p.tf == 0)

/-- Loop invariant of the FIFO/LIFO outer loop. -/
def InvFL (res : List Proceso) (reloj : Int) (comp : Nat) : Prop :=
  0 ≤ reloj ∧ precondLista res ∧ (∀ p ∈ res, p.tf = 0 ∨ terminado p) ∧
    comp + pendCount res = res.length

/-- Abstract specification shared by `runFirst` and `runLast`: a successful
pass executes one qualifying process in place, and a pass fails exactly
when no process qualifies. -/
def SelSpec (sel : Int → List Proceso → Option (List Proceso × Int)) : Prop :=
  ∀ reloj ps,
    (∀ pr, sel reloj ps = some pr →
      ∃ l1 p l2, ps = l1 ++ p :: l2 ∧ listo reloj p = true ∧
        pr.1 = l1 ++ ejecutar p reloj :: l2 ∧ pr.2 = reloj + p.t) ∧
    (sel reloj ps = none ↔ ∀ p ∈ ps, listo reloj p = false)

theorem runFirst_selSpec : SelSpec runFirst := by
  intro reloj ps
  constructor
  · intro pr h
    obtain ⟨l1, p, l2, h1, _, h3, h4, h5⟩ := runFirst_some reloj ps pr h
    exact ⟨l1, p, l2, h1, h3, h4, h5⟩
  · exact runFirst_eq_none reloj ps

theorem runLast_selSpec : SelSpec runLast := by
  intro reloj ps
  constructor
  · intro pr h
    obtain ⟨l1, p, l2, h1, _, h3, h4, h5⟩ := runLast_some reloj ps pr h
    exact ⟨l1, p, l2, h1, h3, h4, h5⟩
  · exact runLast_eq_none reloj ps

theorem pendCount_append (l1 l2 : List Proceso) :
    pendCount (l1 ++ l2) = pendCount l1 + pendCount l2 :=
  List.countP_append _ _ _

/-- One productive iteration preserves the invariant. -/
theorem paso_inv {sel} (hsel : SelSpec sel) {res reloj comp res' reloj'}
    (hinv : InvFL res reloj comp) (h : sel reloj res = some (res', reloj')) :
    InvFL res' reloj' (comp + 1) ∧ res'.length = res.length := by
  obtain ⟨hreloj, hprec, hdisj, hcount⟩ := hinv
  obtain ⟨l1, p, l2, hsplit, hlisto, h1, h2⟩ := (hsel reloj res).1 _ h
  simp only at h1 h2
  obtain ⟨htf, hti⟩ := (listo_iff reloj p).mp hlisto
  have hpmem : p ∈ res := by rw [hsplit]; simp
  have hpt : 0 < p.t := (hprec p hpmem).2
  have hterm := terminadoSpec_ejecutar p reloj hreloj hti hpt
  have htfpos : 0 < (ejecutar p reloj).tf := hterm.1
  constructor
  · refine ⟨?_, ?_, ?_, ?_⟩
    · rw [h2]; omega
    · intro x hx
      rw [h1] at hx
      simp only [List.mem_append, List.mem_cons] at hx
      rcases hx with hx | hx | hx
      · exact hprec x (by rw [hsplit]; simp [hx])
      · subst hx
        exact ⟨(hprec p hpmem).1, hpt⟩
      · exact hprec x (by rw [hsplit]; simp [hx])
    · intro x hx
      rw [h1] at hx
      simp only [List.mem_append, List.mem_cons] at hx
      rcases hx with hx | hx | hx
      · exact hdisj x (by rw [hsplit]; simp [hx])
      · subst hx
        exact Or.inr ⟨hterm.1, hterm.2.1, hterm.2.2.1, hterm.2.2.2.1,
          hterm.2.2.2.2.1, hterm.2.2.2.2.2⟩
      · exact hdisj x (by rw [hsplit]; simp [hx])
    · rw [h1, pendCount_append]
      rw [hsplit, pendCount_append] at hcount
      have hpc : pendCount (p :: l2) = 1 + pendCount l2 := by
        unfold pendCount
        rw [List.countP_cons]
        simp [htf]
        omega
      have hpc' : pendCount (ejecutar p reloj :: l2) = pendCount l2 := by
        unfold pendCount
        rw [List.countP_cons]
        have hne : ((ejecutar p reloj).tf == 0) = false := by
          simp
          omega
        simp [hne]
      rw [hpc']
      rw [hpc] at hcount
      rw [h1, hsplit] at *
      simp only [List.length_append, List.length_cons] at hcount ⊢
      omega
  · rw [h1, hsplit]
    simp

/-- The idle-skip iteration preserves the invariant. -/
theorem idle_inv {res reloj comp m}
    (hinv : InvFL res reloj comp) (h : minLlegadaPendiente res = some m) :
    InvFL res m comp := by
  obtain ⟨hreloj, hprec, hdisj, hcount⟩ := hinv
  obtain ⟨⟨p, hp, htf, hti⟩, _⟩ := minLlegadaPendiente_spec res m h
  exact ⟨by have := (hprec p hp).1; omega, hprec, hdisj, hcount⟩

/-- Along any successful run, the input attributes of the records are
preserved, position by position. -/
theorem cicloFL_entrada {sel} (hsel : SelSpec sel) :
    ∀ fuel res reloj comp res',
      cicloFL sel fuel res reloj comp = some res' →
      res'.map entrada = res.map entrada
  | 0, res, reloj, comp, res' => by simp [cicloFL]
  | fuel+1, res, reloj, comp, res' => by
    intro h
    by_cases hc : comp < res.length
    · rw [cicloFL, if_pos hc] at h
      cases hs : sel reloj res with
      | some pr =>
        obtain ⟨res1, reloj1⟩ := pr
        rw [hs] at h
        have ih := cicloFL_entrada hsel fuel res1 reloj1 (comp+1) res' h
        obtain ⟨l1, p, l2, hsplit, _, h1, _⟩ := (hsel reloj res).1 _ hs
        simp only at h1
        rw [ih, h1, hsplit]
        simp [entrada, ejecutar, metricas]
      | none =>
        rw [hs] at h
        cases hm : minLlegadaPendiente res with
        | some m =>
          rw [hm] at h
          exact cicloFL_entrada hsel fuel res m comp res' h
        | none => rw [hm] at h; exact absurd h (by simp)
    · rw [cicloFL, if_neg hc] at h
      rw [Option.some_inj] at h
      rw [h]

/-- Along any successful run from an invariant-satisfying state, every
record of the result is finished with correct metrics. -/
theorem cicloFL_post {sel} (hsel : SelSpec sel) :
    ∀ fuel res reloj comp res',
      InvFL res reloj comp →
      cicloFL sel fuel res reloj comp = some res' →
      ∀ p ∈ res', terminado p
  | 0, res, reloj, comp, res' => by simp [cicloFL]
  | fuel+1, res, reloj, comp, res' => by
    intro hinv h
    by_cases hc : comp < res.length
    · rw [cicloFL, if_pos hc] at h
      cases hs : sel reloj res with
      | some pr =>
        obtain ⟨res1, reloj1⟩ := pr
        rw [hs] at h
        exact cicloFL_post hsel fuel res1 reloj1 (comp+1) res'
          (paso_inv hsel hinv hs).1 h
      | none =>
        rw [hs] at h
        cases hm : minLlegadaPendiente res with
        | some m =>
          rw [hm] at h
          exact cicloFL_post hsel fuel res m comp res' (idle_inv hinv hm) h
        | none => rw [hm] at h; exact absurd h (by simp)
    · rw [cicloFL, if_neg hc] at h
      rw [Option.some_inj] at h
      obtain ⟨_, _, hdisj, hcount⟩ := hinv
      have hzero : pendCount res = 0 := by omega
      intro p hp
      rw [← h] at hp
      rcases hdisj p hp with htf | hterm
      · exfalso
        have hne : p.tf ≠ 0 := by
          intro hcontra
          have := List.countP_eq_zero.mp hzero p hp
          simp [hcontra] at this
        exact hne htf
      · exact hterm

/-- With fuel `2*(res.length - comp) + 1`, the loop reaches the terminal
state: at most one idle-skip occurs between two completions. -/
theorem cicloFL_termina {sel} (hsel : SelSpec sel) :
    ∀ k fuel res reloj comp,
      InvFL res reloj comp → res.length - comp = k → 2*k+1 ≤ fuel →
      (cicloFL sel fuel res reloj comp).isSome
  | 0, fuel, res, reloj, comp => by
    intro hinv hk hfuel
    obtain ⟨fuel', rfl⟩ : ∃ f, fuel = f + 1 := ⟨fuel - 1, by omega⟩
    have hc : ¬ comp < res.length := by omega
    rw [cicloFL, if_neg hc]
    simp
  | k+1, fuel, res, reloj, comp => by
    intro hinv hk hfuel
    obtain ⟨fuel', rfl⟩ : ∃ f, fuel = f + 1 := ⟨fuel - 1, by omega⟩
    have hc : comp < res.length := by omega
    rw [cicloFL, if_pos hc]
    cases hs : sel reloj res with
    | some pr =>
      obtain ⟨res1, reloj1⟩ := pr
      obtain ⟨hinv1, hlen1⟩ := paso_inv hsel hinv hs
      exact cicloFL_termina hsel k fuel' res1 reloj1 (comp+1) hinv1
        (by omega) (by omega)
    | none =>
      have hpend : 0 < pendCount res := by
        obtain ⟨_, _, _, hcount⟩ := hinv
        omega
      have hex : ∃ p ∈ res, p.tf = 0 := by
        obtain ⟨p, hp, hptf⟩ := List.countP_pos_iff.mp hpend
        exact ⟨p, hp, by simpa using hptf⟩
      obtain ⟨m, hm⟩ := Option.isSome_iff_exists.mp (minLlegadaPendiente_isSome res hex)
      rw [hm]
      have hinv1 := idle_inv hinv hm
      obtain ⟨fuel'', rfl⟩ : ∃ f, fuel' = f + 1 := ⟨fuel' - 1, by omega⟩
      show (cicloFL sel (fuel'' + 1) res m comp).isSome
      rw [cicloFL, if_pos hc]
      obtain ⟨⟨p, hp, hptf, hpti⟩, _⟩ := minLlegadaPendiente_spec res m hm
      have hlisto : listo m p = true := (listo_iff m p).mpr ⟨hptf, by omega⟩
      cases hs2 : sel m res with
      | none =>
        exfalso
        have := ((hsel m res).2.mp hs2) p hp
        rw [hlisto] at this
        exact absurd this (by simp)
      | some pr =>
        obtain ⟨res1, reloj1⟩ := pr
        obtain ⟨hinv1', hlen1⟩ := paso_inv hsel hinv1 hs2
        exact cicloFL_termina hsel k fuel'' res1 reloj1 (comp+1) hinv1'
          (by omega) (by omega)

/-- The initial state of a FIFO/LIFO run satisfies the invariant. -/
theorem inv_inicial (ps : List Proceso) (hps : precondLista ps) :
    InvFL (ps.map copia) 0 0 := by
  refine ⟨le_refl 0, ?_, ?_, ?_⟩
  · intro p hp
    obtain ⟨p0, hp0, rfl⟩ := List.mem_map.mp hp
    exact hps p0 hp0
  · intro p hp
    obtain ⟨p0, hp0, rfl⟩ := List.mem_map.mp hp
    exact Or.inl rfl
  · unfold pendCount
    rw [List.countP_map]
    simp [copia, Proceso.nuevo, Function.comp]

/-! ### List-update helpers for the Round Robin state -/

theorem getI_set_self : ∀ (l : List Int) (i : Nat) (a : Int), i < l.length →
    getI (l.set i a) i = a
  | [], i, a, h => by simp at h
  | x :: l, 0, a, _ => rfl
  | x :: l, i+1, a, h =>
    getI_set_self l i a (by simpa using h)

theorem getI_set_ne : ∀ (l : List Int) (i j : Nat) (a : Int), i ≠ j →
    getI (l.set j a) i = getI l i
  | [], _, _, _, _ => rfl
  | x :: l, i, 0, a, h => by
    obtain ⟨i', rfl⟩ : ∃ k, i = k + 1 := ⟨i - 1, by omega⟩
    rfl
  | x :: l, 0, j+1, a, h => rfl
  | x :: l, i+1, j+1, a, h =>
    getI_set_ne l i j a (by omega)

theorem getP_set_self : ∀ (l : List Proceso) (i : Nat) (a : Proceso), i < l.length →
    getP (l.set i a) i = a
  | [], i, a, h => by simp at h
  | x :: l, 0, a, _ => rfl
  | x :: l, i+1, a, h =>
    getP_set_self l i a (by simpa using h)

theorem getP_set_ne : ∀ (l : List Proceso) (i j : Nat) (a : Proceso), i ≠ j →
    getP (l.set j a) i = getP l i
  | [], _, _, _, _ => rfl
  | x :: l, i, 0, a, h => by
    obtain ⟨i', rfl⟩ : ∃ k, i = k + 1 := ⟨i - 1, by omega⟩
    rfl
  | x :: l, 0, j+1, a, h => rfl
  | x :: l, i+1, j+1, a, h =>
    getP_set_ne l i j a (by omega)

theorem getN_set_self : ∀ (l : List Nat) (i : Nat) (a : Nat), i < l.length →
    (l.set i a).getD i 0 = a
  | [], i, a, h => by simp at h
  | x :: l, 0, a, _ => rfl
  | x :: l, i+1, a, h =>
    getN_set_self l i a (by simpa using h)

theorem getN_set_ne : ∀ (l : List Nat) (i j : Nat) (a : Nat), i ≠ j →
    (l.set j a).getD i 0 = l.getD i 0
  | [], _, _, _, _ => rfl
  | x :: l, i, 0, a, h => by
    obtain ⟨i', rfl⟩ : ∃ k, i = k + 1 := ⟨i - 1, by omega⟩
    rfl
  | x :: l, 0, j+1, a, h => rfl
  | x :: l, i+1, j+1, a, h =>
    getN_set_ne l i j a (by omega)

theorem getP_mem : ∀ (l : List Proceso) (i : Nat), i < l.length → getP l i ∈ l
  | [], i, h => by simp at h
  | x :: l, 0, _ => List.mem_cons_self x l
  | x :: l, i+1, h =>
    List.mem_cons_of_mem x (getP_mem l i (by simpa using h))

theorem mem_getP : ∀ (l : List Proceso) (p : Proceso), p ∈ l →
    ∃ i, i < l.length ∧ getP l i = p
  | [], p, h => by simp at h
  | x :: l, p, h => by
    rcases List.mem_cons.mp h with h | h
    · exact ⟨0, by simp, h.symm⟩
    · obtain ⟨i, hi, hget⟩ := mem_getP l p h
      exact ⟨i+1, by simpa using hi, hget⟩

/-- Total remaining work, as a natural number. -/
def sumRestante (l : List Int) : Nat := (l.map Int.toNat).sum

theorem sumRestante_set : ∀ (l : List Int) (i : Nat) (a : Int), i < l.length →
    sumRestante (l.set i a) + (getI l i).toNat = sumRestante l + a.toNat
  | [], i, a, h => by simp at h
  | x :: l, 0, a, _ => by
    simp [sumRestante, getI]
    omega
  | x :: l, i+1, a, h => by
    have ih := sumRestante_set l i a (by simpa using h)
    simp [sumRestante, getI] at ih ⊢
    omega

/-- Number of zero entries of the remaining-time list. -/
def cuentaCeros (l : List Int) : Nat := l.countP (fun r => r == 0)

theorem cuentaCeros_set : ∀ (l : List Int) (i : Nat) (a : Int), i < l.length →
    cuentaCeros (l.set i a) + (if getI l i = 0 then 1 else 0) =
      cuentaCeros l + (if a = 0 then 1 else 0)
  | [], i, a, h => by simp at h
  | x :: l, 0, a, _ => by
    simp [cuentaCeros, getI, List.countP_cons]
    by_cases hx : x = 0 <;> by_cases ha : a = 0 <;> simp [hx, ha]
  | x :: l, i+1, a, h => by
    have ih := cuentaCeros_set l i a (by simpa using h)
    have hs : (x :: l).set (i+1) a = x :: l.set i a := rfl
    have hg : getI (x :: l) (i+1) = getI l i := rfl
    rw [hs, hg]
    unfold cuentaCeros at ih ⊢
    rw [List.countP_cons, List.countP_cons]
    omega

theorem cuentaCeros_eq_length : ∀ (l : List Int), cuentaCeros l = l.length ↔
    ∀ i < l.length, getI l i = 0 := by
  intro l
  unfold cuentaCeros
  rw [List.countP_eq_length]
  constructor
  · intro h i hi
    have := h (getI l i) (by unfold getI; rw [List.getD_eq_getElem l 0 hi]; exact List.getElem_mem hi)
    simpa using this
  · intro h a ha
    obtain ⟨i, hi, hget⟩ := List.mem_iff_getElem.mp ha
    have := h i hi
    unfold getI at this
    rw [List.getD_eq_getElem l 0 hi] at this
    simp [hget] at this
    simp [this]

/-! ### Properties of the admit phase -/

theorem encolar_spec (res : List Proceso) (rest : List Int) (reloj : Int) :
    ∀ (k : Nat) (cola : List Nat) (indice : Nat),
      (∃ nuevos, (encolarLlegadas res rest reloj k cola indice).1 = cola ++ nuevos ∧
        ∀ i ∈ nuevos, indice ≤ i ∧
          i < (encolarLlegadas res rest reloj k cola indice).2 ∧ 0 < getI rest i) ∧
      indice ≤ (encolarLlegadas res rest reloj k cola indice).2 ∧
      (∀ i, indice ≤ i → i < (encolarLlegadas res rest reloj k cola indice).2 →
        (getP res i).ti ≤ reloj ∧ i < res.length ∧
          (0 < getI rest i → i ∈ (encolarLlegadas res rest reloj k cola indice).1))
  | 0, cola, indice => by
    refine ⟨⟨[], by simp [encolarLlegadas], by simp⟩, le_refl _, ?_⟩
    intro i h1 h2
    simp [encolarLlegadas] at h2
    omega
  | k+1, cola, indice => by
    by_cases hcond : indice < res.length ∧ (getP res indice).ti ≤ reloj
    · have hunf : encolarLlegadas res rest reloj (k+1) cola indice =
        encolarLlegadas res rest reloj k
          (if 0 < getI rest indice then cola ++ [indice] else cola) (indice + 1) := by
        rw [encolarLlegadas, if_pos hcond]
      by_cases hpos : 0 < getI rest indice
      · rw [if_pos hpos] at hunf
        obtain ⟨⟨nuevos, hn1, hn2⟩, hmono, hcover⟩ :=
          encolar_spec res rest reloj k (cola ++ [indice]) (indice + 1)
        rw [hunf]
        refine ⟨⟨indice :: nuevos, by rw [hn1]; simp, ?_⟩, by omega, ?_⟩
        · intro i hi
          rcases List.mem_cons.mp hi with hi | hi
          · subst hi
            exact ⟨le_refl _, by omega, hpos⟩
          · have := hn2 i hi
            exact ⟨by omega, this.2.1, this.2.2⟩
        · intro i h1 h2
          by_cases hieq : i = indice
          · subst hieq
            refine ⟨hcond.2, hcond.1, ?_⟩
            intro _
            rw [hn1]
            simp
          · have := hcover i (by omega) h2
            exact this
      · rw [if_neg hpos] at hunf
        obtain ⟨⟨nuevos, hn1, hn2⟩, hmono, hcover⟩ :=
          encolar_spec res rest reloj k cola (indice + 1)
        rw [hunf]
        refine ⟨⟨nuevos, hn1, ?_⟩, by omega, ?_⟩
        · intro i hi
          have := hn2 i hi
          exact ⟨by omega, this.2.1, this.2.2⟩
        · intro i h1 h2
          by_cases hieq : i = indice
          · subst hieq
            exact ⟨hcond.2, hcond.1, fun hp => absurd hp hpos⟩
          · exact hcover i (by omega) h2
    · have hunf : encolarLlegadas res rest reloj (k+1) cola indice = (cola, indice) := by
        rw [encolarLlegadas, if_neg hcond]
      rw [hunf]
      refine ⟨⟨[], by simp, by simp⟩, le_refl _, ?_⟩
      intro i h1 h2
      simp at h2
      omega

theorem encolar_stop (res : List Proceso) (rest : List Int) (reloj : Int) :
    ∀ (k : Nat) (cola : List Nat) (indice : Nat),
      indice ≤ res.length → res.length ≤ indice + k →
      (encolarLlegadas res rest reloj k cola indice).2 = res.length ∨
      ((encolarLlegadas res rest reloj k cola indice).2 < res.length ∧
        reloj < (getP res (encolarLlegadas res rest reloj k cola indice).2).ti)
  | 0, cola, indice => by
    intro h1 h2
    left
    simp [encolarLlegadas]
    omega
  | k+1, cola, indice => by
    intro h1 h2
    by_cases hcond : indice < res.length ∧ (getP res indice).ti ≤ reloj
    · have hunf : encolarLlegadas res rest reloj (k+1) cola indice =
        encolarLlegadas res rest reloj k
          (if 0 < getI rest indice then cola ++ [indice] else cola) (indice + 1) := by
        rw [encolarLlegadas, if_pos hcond]
      rw [hunf]
      exact encolar_stop res rest reloj k _ (indice+1) (by omega) (by omega)
    · have hunf : encolarLlegadas res rest reloj (k+1) cola indice = (cola, indice) := by
        rw [encolarLlegadas, if_neg hcond]
      rw [hunf]
      by_cases hlt : indice < res.length
      · right
        exact ⟨hlt, by push_neg at hcond; exact hcond hlt⟩
      · left
        simp
        omega

theorem encolar_nodup (res : List Proceso) (rest : List Int) (reloj : Int) :
    ∀ (k : Nat) (cola : List Nat) (indice : Nat),
      cola.Nodup → (∀ i ∈ cola, i < indice) →
      (encolarLlegadas res rest reloj k cola indice).1.Nodup ∧
      (∀ i ∈ (encolarLlegadas res rest reloj k cola indice).1,
        i < (encolarLlegadas res rest reloj k cola indice).2)
  | 0, cola, indice => by
    intro hnd hlt
    simp only [encolarLlegadas]
    exact ⟨hnd, hlt⟩
  | k+1, cola, indice => by
    intro hnd hlt
    by_cases hcond : indice < res.length ∧ (getP res indice).ti ≤ reloj
    · have hunf : encolarLlegadas res rest reloj (k+1) cola indice =
        encolarLlegadas res rest reloj k
          (if 0 < getI rest indice then cola ++ [indice] else cola) (indice + 1) := by
        rw [encolarLlegadas, if_pos hcond]
      rw [hunf]
      apply encolar_nodup res rest reloj k _ (indice+1)
      · by_cases hpos : 0 < getI rest indice
        · rw [if_pos hpos]
          rw [List.nodup_append]
          refine ⟨hnd, by simp, ?_⟩
          intro a ha hb
          simp at hb
          subst hb
          exact absurd (hlt _ ha) (by omega)
        · rw [if_neg hpos]
          exact hnd
      · intro i hi
        by_cases hpos : 0 < getI rest indice
        · rw [if_pos hpos] at hi
          rcases List.mem_append.mp hi with hi | hi
          · have := hlt i hi
            omega
          · simp at hi
            omega
        · rw [if_neg hpos] at hi
          have := hlt i hi
          omega
    · have hunf : encolarLlegadas res rest reloj (k+1) cola indice = (cola, indice) := by
        rw [encolarLlegadas, if_neg hcond]
      rw [hunf]
      exact ⟨hnd, hlt⟩

/-! ### The Round Robin loop invariant -/

/-- The slice length `min(quantum, tiempos_restantes[actual])`. -/
def ejec (q : Int) (s : RRState) (actual : Nat) : Int :=
  min q (getI s.tiempos_restantes actual)

/-- The state after an iteration that finishes the running process. -/
def rrFin (q : Int) (s : RRState) (actual : Nat) (colaResto : List Nat)
    (indice1 : Nat) : RRState :=
  { resultados := s.resultados.set actual
      (metricas (getP s.resultados actual) (s.reloj + ejec q s actual))
    tiempos_restantes := s.tiempos_restantes.set actual
      (getI s.tiempos_restantes actual - ejec q s actual)
    reloj := s.reloj + ejec q s actual
    completados := s.completados + 1
    cola := colaResto
    indice := indice1
    cuenta := s.cuenta.set actual (s.cuenta.getD actual 0 + 1) }

/-- The state after an iteration that re-enqueues the running process. -/
def rrCirc (q : Int) (s : RRState) (actual : Nat) (colaResto : List Nat)
    (indice1 : Nat) : RRState :=
  { s with
    tiempos_restantes := s.tiempos_restantes.set actual
      (getI s.tiempos_restantes actual - ejec q s actual)
    reloj := s.reloj + ejec q s actual
    cola := colaResto ++ [actual]
    indice := indice1
    cuenta := s.cuenta.set actual (s.cuenta.getD actual 0 + 1) }

theorem rrStep_eq_idle {q : Int} {s : RRState} {indice1 : Nat}
    (hr : encolarLlegadas s.resultados s.tiempos_restantes s.reloj
        (s.resultados.length - s.indice) s.cola s.indice = ([], indice1)) :
    rrStep q s = { s with cola := [], indice := indice1, reloj := s.reloj + 1 } := by
  unfold rrStep
  rw [hr]

theorem rrStep_eq_fin {q : Int} {s : RRState} {actual : Nat}
    {colaResto : List Nat} {indice1 : Nat}
    (hr : encolarLlegadas s.resultados s.tiempos_restantes s.reloj
        (s.resultados.length - s.indice) s.cola s.indice = (actual :: colaResto, indice1))
    (hz : getI s.tiempos_restantes actual - ejec q s actual = 0) :
    rrStep q s = rrFin q s actual colaResto indice1 := by
  unfold rrStep
  rw [hr]
  show (if getI s.tiempos_restantes actual - ejec q s actual = 0
    then rrFin q s actual colaResto indice1
    else rrCirc q s actual colaResto indice1) = rrFin q s actual colaResto indice1
  rw [if_pos hz]

theorem rrStep_eq_circ {q : Int} {s : RRState} {actual : Nat}
    {colaResto : List Nat} {indice1 : Nat}
    (hr : encolarLlegadas s.resultados s.tiempos_restantes s.reloj
        (s.resultados.length - s.indice) s.cola s.indice = (actual :: colaResto, indice1))
    (hz : ¬ getI s.tiempos_restantes actual - ejec q s actual = 0) :
    rrStep q s = rrCirc q s actual colaResto indice1 := by
  unfold rrStep
  rw [hr]
  show (if getI s.tiempos_restantes actual - ejec q s actual = 0
    then rrFin q s actual colaResto indice1
    else rrCirc q s actual colaResto indice1) = rrCirc q s actual colaResto indice1
  rw [if_neg hz]

/-- The invariant maintained by every Round Robin iteration (for `q > 0`). -/
structure RRInv (q : Int) (s : RRState) : Prop where
  hq : 0 < q
  hrestLen : s.tiempos_restantes.length = s.resultados.length
  hcuentaLen : s.cuenta.length = s.resultados.length
  hreloj : 0 ≤ s.reloj
  hprec : precondLista s.resultados
  hindice : s.indice ≤ s.resultados.length
  harr : ∀ i < s.indice, (getP s.resultados i).ti ≤ s.reloj
  hcolaLt : ∀ i ∈ s.cola, i < s.indice
  hcolaPos : ∀ i ∈ s.cola, 0 < getI s.tiempos_restantes i
  hcolaMem : ∀ i < s.indice, 0 < getI s.tiempos_restantes i → i ∈ s.cola
  hnodup : s.cola.Nodup
  hrange : ∀ i < s.resultados.length,
    0 ≤ getI s.tiempos_restantes i ∧
      getI s.tiempos_restantes i ≤ (getP s.resultados i).t
  hvirgen : ∀ i, s.indice ≤ i → i < s.resultados.length →
    getI s.tiempos_restantes i = (getP s.resultados i).t
  hpend : ∀ i < s.resultados.length, 0 < getI s.tiempos_restantes i →
    (getP s.resultados i).tf = 0
  hfin : ∀ i < s.resultados.length, getI s.tiempos_restantes i = 0 →
    terminado (getP s.resultados i)
  hprog : ∀ i < s.resultados.length,
    getI s.tiempos_restantes i < (getP s.resultados i).t →
    (getP s.resultados i).ti +
      ((getP s.resultados i).t - getI s.tiempos_restantes i) ≤ s.reloj
  hcuenta : ∀ i < s.resultados.length,
    (getP s.resultados i).t - getI s.tiempos_restantes i ≤
      q * (s.cuenta.getD i 0 : Int)
  hcomp : s.completados = cuentaCeros s.tiempos_restantes

/-- Largest arrival time of the input (0 for an empty list). -/
def maxLlegada (res : List Proceso) : Int :=
  res.foldr (fun p m => max p.ti m) 0

theorem le_maxLlegada : ∀ (res : List Proceso) (p : Proceso), p ∈ res →
    p.ti ≤ maxLlegada res
  | [], p, h => by simp at h
  | x :: res, p, h => by
    rcases List.mem_cons.mp h with h | h
    · subst h
      exact le_max_left _ _
    · exact le_trans (le_maxLlegada res p h) (le_max_right _ _)

theorem maxLlegada_nonneg : ∀ res : List Proceso, 0 ≤ maxLlegada res
  | [] => le_refl 0
  | x :: res => le_trans (maxLlegada_nonneg res) (le_max_right _ _)

/-- Termination measure for the Round Robin loop: total remaining work plus
the distance from the clock to the largest arrival `A`. -/
def medida (A : Int) (s : RRState) : Nat :=
  sumRestante s.tiempos_restantes + (A - s.reloj).toNat

/-- Any completion set by `metricas` with a positive clock after the full
burst has run yields a record satisfying `terminado`. -/
theorem terminado_metricas (p : Proceso) (tf : Int)
    (h1 : 0 < tf) (h2 : p.ti + p.t ≤ tf) (h3 : 0 < p.t) :
    terminado (metricas p tf) := by
  have hT : tf - p.ti ≠ 0 := by omega
  refine ⟨h1, ?_, rfl, rfl, ?_, ?_⟩
  · show p.ti + p.t ≤ tf
    exact h2
  · show p.t ≤ tf - p.ti
    omega
  · show (if tf - p.ti ≠ 0 then (p.t : Rat) / ((tf - p.ti : Int) : Rat) else 0) = _
    rw [if_pos hT]
    rfl

theorem map_entrada_set : ∀ (l : List Proceso) (i : Nat) (p : Proceso),
    entrada p = entrada (getP l i) → (l.set i p).map entrada = l.map entrada
  | [], i, p, _ => by simp
  | x :: l, 0, p, he => by
    have : (x :: l).set 0 p = p :: l := rfl
    rw [this]
    have hx : entrada p = entrada x := he
    simp [hx]
  | x :: l, i+1, p, he => by
    have ih := map_entrada_set l i p he
    have : (x :: l).set (i+1) p = x :: l.set i p := rfl
    rw [this]
    simp only [List.map_cons]
    rw [ih]

/-- Facts about the queue and cursor produced by the admit phase, starting
from an invariant-satisfying state. -/
theorem admision_facts {q : Int} {s : RRState} {cola1 : List Nat} {indice1 : Nat}
    (hinv : RRInv q s)
    (hr : encolarLlegadas s.resultados s.tiempos_restantes s.reloj
        (s.resultados.length - s.indice) s.cola s.indice = (cola1, indice1)) :
    s.indice ≤ indice1 ∧ indice1 ≤ s.resultados.length ∧
    (∀ i < indice1, (getP s.resultados i).ti ≤ s.reloj) ∧
    (∀ i ∈ cola1, i < indice1) ∧
    (∀ i ∈ cola1, 0 < getI s.tiempos_restantes i) ∧
    (∀ i < indice1, 0 < getI s.tiempos_restantes i → i ∈ cola1) ∧
    cola1.Nodup ∧
    (indice1 = s.resultados.length ∨
      (indice1 < s.resultados.length ∧ s.reloj < (getP s.resultados indice1).ti)) := by
  have hspec := encolar_spec s.resultados s.tiempos_restantes s.reloj
    (s.resultados.length - s.indice) s.cola s.indice
  have hnd := encolar_nodup s.resultados s.tiempos_restantes s.reloj
    (s.resultados.length - s.indice) s.cola s.indice hinv.hnodup hinv.hcolaLt
  have hstop := encolar_stop s.resultados s.tiempos_restantes s.reloj
    (s.resultados.length - s.indice) s.cola s.indice hinv.hindice (by omega)
  rw [hr] at hspec hnd hstop
  dsimp only at hspec hnd hstop
  obtain ⟨⟨nuevos, hn1, hn2⟩, hmono, hcover⟩ := hspec
  obtain ⟨hnd1, hlt1⟩ := hnd
  have hind1 : indice1 ≤ s.resultados.length := by
    rcases hstop with h | h
    · omega
    · omega
  refine ⟨hmono, hind1, ?_, hlt1, ?_, ?_, hnd1, hstop⟩
  · intro i hi
    by_cases hlt : i < s.indice
    · exact hinv.harr i hlt
    · exact (hcover i (by omega) hi).1
  · intro i hi
    rw [hn1] at hi
    rcases List.mem_append.mp hi with hi | hi
    · exact hinv.hcolaPos i hi
    · exact (hn2 i hi).2.2
  · intro i hi hposi
    by_cases hlt : i < s.indice
    · have := hinv.hcolaMem i hlt hposi
      rw [hn1]
      exact List.mem_append_left _ this
    · exact (hcover i (by omega) hi).2.2 hposi

/-- The idle iteration: queue empty after admission.  The invariant is
preserved and, while work remains, the clock is strictly below every upper
bound of the arrival times. -/
theorem rrIdle_props {q : Int} {s : RRState} {indice1 : Nat}
    (hinv : RRInv q s) (hcomplt : s.completados < s.resultados.length)
    (hr : encolarLlegadas s.resultados s.tiempos_restantes s.reloj
        (s.resultados.length - s.indice) s.cola s.indice = ([], indice1)) :
    RRInv q { s with cola := [], indice := indice1, reloj := s.reloj + 1 } ∧
    (∀ A, (∀ p ∈ s.resultados, p.ti ≤ A) → s.reloj < A) := by
  obtain ⟨hmono, hind1, harr1, hlt1, hpos1, hmem1, hnd1, hstop⟩ :=
    admision_facts hinv hr
  constructor
  · refine
      { hq := hinv.hq
        hrestLen := hinv.hrestLen
        hcuentaLen := hinv.hcuentaLen
        hreloj := by have := hinv.hreloj; dsimp only; omega
        hprec := hinv.hprec
        hindice := hind1
        harr := ?_
        hcolaLt := by intro i hi; exact absurd hi (List.not_mem_nil i)
        hcolaPos := by intro i hi; exact absurd hi (List.not_mem_nil i)
        hcolaMem := ?_
        hnodup := List.nodup_nil
        hrange := hinv.hrange
        hvirgen := ?_
        hpend := hinv.hpend
        hfin := hinv.hfin
        hprog := ?_
        hcuenta := hinv.hcuenta
        hcomp := hinv.hcomp }
    · intro i hi
      have := harr1 i hi
      dsimp only
      omega
    · intro i hi hposi
      exact absurd (hmem1 i hi hposi) (List.not_mem_nil i)
    · intro i h1 h2
      dsimp only at h1
      exact hinv.hvirgen i (by omega) h2
    · intro i h1 h2
      have := hinv.hprog i h1 h2
      dsimp only
      omega
  · intro A hA
    have hex : ∃ i, i < s.resultados.length ∧ getI s.tiempos_restantes i ≠ 0 := by
      by_contra hno
      push_neg at hno
      have hlen : cuentaCeros s.tiempos_restantes = s.tiempos_restantes.length := by
        rw [cuentaCeros_eq_length]
        intro i hi
        exact hno i (by rw [← hinv.hrestLen]; exact hi)
      have h1 := hinv.hcomp
      have h2 := hinv.hrestLen
      omega
    obtain ⟨i, hi, hnz⟩ := hex
    have hposi : 0 < getI s.tiempos_restantes i := by
      have := (hinv.hrange i hi).1
      omega
    have hge : indice1 ≤ i := by
      by_contra hltc
      push_neg at hltc
      exact absurd (hmem1 i hltc hposi) (List.not_mem_nil i)
    rcases hstop with h | h
    · omega
    · have := le_maxLlegada s.resultados (getP s.resultados indice1)
        (getP_mem s.resultados indice1 h.1)
      have hAi := hA (getP s.resultados indice1) (getP_mem s.resultados indice1 h.1)
      omega

/-- The running iteration: queue nonempty after admission.  The invariant
is preserved, lengths and input attributes are preserved, total remaining
work strictly decreases, and the clock does not go backwards. -/
theorem rrRun_props {q : Int} {s : RRState} {actual : Nat}
    {colaResto : List Nat} {indice1 : Nat}
    (hinv : RRInv q s)
    (hr : encolarLlegadas s.resultados s.tiempos_restantes s.reloj
        (s.resultados.length - s.indice) s.cola s.indice =
          (actual :: colaResto, indice1)) :
    RRInv q (rrStep q s) ∧
    (rrStep q s).resultados.length = s.resultados.length ∧
    (rrStep q s).resultados.map entrada = s.resultados.map entrada ∧
    sumRestante (rrStep q s).tiempos_restantes <
      sumRestante s.tiempos_restantes ∧
    s.reloj ≤ (rrStep q s).reloj := by
  obtain ⟨hmono, hind1, harr1, hlt1, hpos1, hmem1, hnd1, hstop⟩ :=
    admision_facts hinv hr
  have hhead : actual ∈ actual :: colaResto := List.mem_cons_self _ _
  have hactlt : actual < indice1 := hlt1 actual hhead
  have hactn : actual < s.resultados.length := by omega
  have hactrest : actual < s.tiempos_restantes.length := by
    rw [hinv.hrestLen]; omega
  have hactcuenta : actual < s.cuenta.length := by
    rw [hinv.hcuentaLen]; omega
  have hrem : 0 < getI s.tiempos_restantes actual := hpos1 actual hhead
  have hremle : getI s.tiempos_restantes actual ≤ (getP s.resultados actual).t :=
    (hinv.hrange actual hactn).2
  have hti : (getP s.resultados actual).ti ≤ s.reloj := harr1 actual hactlt
  have htpos : 0 < (getP s.resultados actual).t :=
    (hinv.hprec _ (getP_mem s.resultados actual hactn)).2
  have hexpos : 0 < ejec q s actual := lt_min hinv.hq hrem
  have hexq : ejec q s actual ≤ q := min_le_left _ _
  have hexrem : ejec q s actual ≤ getI s.tiempos_restantes actual :=
    min_le_right _ _
  have hexti : (getP s.resultados actual).ti +
      ((getP s.resultados actual).t -
        (getI s.tiempos_restantes actual - ejec q s actual)) ≤
      s.reloj + ejec q s actual := by
    by_cases hfull :
        getI s.tiempos_restantes actual = (getP s.resultados actual).t
    · omega
    · have hlt2 : getI s.tiempos_restantes actual < (getP s.resultados actual).t := by
        omega
      have := hinv.hprog actual hactn hlt2
      omega
  have hnotmem : actual ∉ colaResto := (List.nodup_cons.mp hnd1).1
  have hndtail : colaResto.Nodup := (List.nodup_cons.mp hnd1).2
  have hget1self :
      getI (s.tiempos_restantes.set actual
        (getI s.tiempos_restantes actual - ejec q s actual)) actual =
      getI s.tiempos_restantes actual - ejec q s actual :=
    getI_set_self _ _ _ hactrest
  have hget1ne : ∀ i, i ≠ actual →
      getI (s.tiempos_restantes.set actual
        (getI s.tiempos_restantes actual - ejec q s actual)) i =
      getI s.tiempos_restantes i :=
    fun i hi => getI_set_ne _ i actual _ hi
  have hcuentagen : ∀ i, i < s.resultados.length →
      (getP s.resultados i).t -
        getI (s.tiempos_restantes.set actual
          (getI s.tiempos_restantes actual - ejec q s actual)) i ≤
      q * ((s.cuenta.set actual (s.cuenta.getD actual 0 + 1)).getD i 0 : Int) := by
    intro i hi
    by_cases hieq : i = actual
    · subst hieq
      rw [hget1self, getN_set_self _ _ _ hactcuenta]
      have hc := hinv.hcuenta i hi
      push_cast
      have hring : q * ((s.cuenta.getD i 0 : Int) + 1) =
          q * (s.cuenta.getD i 0 : Int) + q := by ring
      rw [hring]
      linarith
    · rw [hget1ne i hieq, getN_set_ne _ i actual _ hieq]
      exact hinv.hcuenta i hi
  have hsum : sumRestante (s.tiempos_restantes.set actual
        (getI s.tiempos_restantes actual - ejec q s actual)) <
      sumRestante s.tiempos_restantes := by
    have := sumRestante_set s.tiempos_restantes actual
      (getI s.tiempos_restantes actual - ejec q s actual) hactrest
    omega
  by_cases hz : getI s.tiempos_restantes actual - ejec q s actual = 0
  · rw [rrStep_eq_fin hr hz]
    simp only [rrFin]
    refine ⟨?_, ?_, ?_, ?_, ?_⟩
    · refine
        { hq := hinv.hq
          hrestLen := ?_
          hcuentaLen := ?_
          hreloj := ?_
          hprec := ?_
          hindice := ?_
          harr := ?_
          hcolaLt := ?_
          hcolaPos := ?_
          hcolaMem := ?_
          hnodup := hndtail
          hrange := ?_
          hvirgen := ?_
          hpend := ?_
          hfin := ?_
          hprog := ?_
          hcuenta := ?_
          hcomp := ?_ }
      · dsimp only
        rw [List.length_set, List.length_set]
        exact hinv.hrestLen
      · dsimp only
        rw [List.length_set, List.length_set]
        exact hinv.hcuentaLen
      · dsimp only
        have := hinv.hreloj
        omega
      · intro p hp
        dsimp only at hp
        rcases List.mem_or_eq_of_mem_set hp with h | h
        · exact hinv.hprec p h
        · subst h
          rw [metricas_ti, metricas_t]
          exact hinv.hprec _ (getP_mem s.resultados actual hactn)
      · dsimp only
        rw [List.length_set]
        exact hind1
      · intro i hi
        dsimp only at hi ⊢
        by_cases hieq : i = actual
        · subst hieq
          rw [getP_set_self _ _ _ hactn, metricas_ti]
          omega
        · rw [getP_set_ne _ i actual _ hieq]
          have := harr1 i hi
          omega
      · intro i hi
        dsimp only at hi ⊢
        exact hlt1 i (List.mem_cons_of_mem _ hi)
      · intro i hi
        dsimp only at hi ⊢
        have hieq : i ≠ actual := fun hc => hnotmem (hc ▸ hi)
        rw [hget1ne i hieq]
        exact hpos1 i (List.mem_cons_of_mem _ hi)
      · intro i hi hposi
        dsimp only at hi hposi ⊢
        by_cases hieq : i = actual
        · subst hieq
          rw [hget1self, hz] at hposi
          omega
        · rw [hget1ne i hieq] at hposi
          rcases List.mem_cons.mp (hmem1 i hi hposi) with h | h
          · exact absurd h hieq
          · exact h
      · intro i hi
        dsimp only at hi ⊢
        rw [List.length_set] at hi
        by_cases hieq : i = actual
        · subst hieq
          rw [hget1self, hz, getP_set_self _ _ _ hactn, metricas_t]
          omega
        · rw [hget1ne i hieq, getP_set_ne _ i actual _ hieq]
          exact hinv.hrange i hi
      · intro i h1 h2
        dsimp only at h1 h2 ⊢
        rw [List.length_set] at h2
        have hieq : i ≠ actual := by omega
        rw [hget1ne i hieq, getP_set_ne _ i actual _ hieq]
        exact hinv.hvirgen i (by omega) h2
      · intro i hi hposi
        dsimp only at hi hposi ⊢
        rw [List.length_set] at hi
        by_cases hieq : i = actual
        · subst hieq
          rw [hget1self, hz] at hposi
          omega
        · rw [hget1ne i hieq] at hposi
          rw [getP_set_ne _ i actual _ hieq]
          exact hinv.hpend i hi hposi
      · intro i hi hzi
        dsimp only at hi hzi ⊢
        rw [List.length_set] at hi
        by_cases hieq : i = actual
        · subst hieq
          rw [getP_set_self _ _ _ hactn]
          refine terminado_metricas _ _ ?_ ?_ htpos
          · have := hinv.hreloj
            omega
          · omega
        · rw [hget1ne i hieq] at hzi
          rw [getP_set_ne _ i actual _ hieq]
          exact hinv.hfin i hi hzi
      · intro i hi hlti
        dsimp only at hi hlti ⊢
        rw [List.length_set] at hi
        by_cases hieq : i = actual
        · subst hieq
          rw [hget1self, hz] at hlti ⊢
          rw [getP_set_self _ _ _ hactn, metricas_ti, metricas_t] at *
          omega
        · rw [hget1ne i hieq] at hlti ⊢
          rw [getP_set_ne _ i actual _ hieq] at hlti ⊢
          have := hinv.hprog i hi hlti
          omega
      · intro i hi
        dsimp only at hi ⊢
        rw [List.length_set] at hi
        by_cases hieq : i = actual
        · subst hieq
          rw [getP_set_self _ _ _ hactn, metricas_t]
          exact hcuentagen i hi
        · rw [getP_set_ne _ i actual _ hieq]
          exact hcuentagen i hi
      · dsimp only
        have hcs := cuentaCeros_set s.tiempos_restantes actual
          (getI s.tiempos_restantes actual - ejec q s actual) hactrest
        rw [if_neg (by omega), if_pos hz] at hcs
        have := hinv.hcomp
        omega
    · dsimp only
      rw [List.length_set]
    · dsimp only
      exact map_entrada_set _ _ _ (metricas_entrada _ _)
    · dsimp only
      exact hsum
    · dsimp only
      omega
  · rw [rrStep_eq_circ hr hz]
    simp only [rrCirc]
    have hremex : 0 < getI s.tiempos_restantes actual - ejec q s actual := by
      omega
    refine ⟨?_, ?_, ?_, ?_, ?_⟩
    · refine
        { hq := hinv.hq
          hrestLen := ?_
          hcuentaLen := ?_
          hreloj := ?_
          hprec := hinv.hprec
          hindice := hind1
          harr := ?_
          hcolaLt := ?_
          hcolaPos := ?_
          hcolaMem := ?_
          hnodup := ?_
          hrange := ?_
          hvirgen := ?_
          hpend := ?_
          hfin := ?_
          hprog := ?_
          hcuenta := hcuentagen
          hcomp := ?_ }
      · dsimp only
        rw [List.length_set]
        exact hinv.hrestLen
      · dsimp only
        rw [List.length_set]
        exact hinv.hcuentaLen
      · dsimp only
        have := hinv.hreloj
        omega
      · intro i hi
        dsimp only at hi ⊢
        have := harr1 i hi
        omega
      · intro i hi
        dsimp only at hi ⊢
        rcases List.mem_append.mp hi with h | h
        · exact hlt1 i (List.mem_cons_of_mem _ h)
        · simp at h
          omega
      · intro i hi
        dsimp only at hi ⊢
        rcases List.mem_append.mp hi with h | h
        · have hieq : i ≠ actual := fun hc => hnotmem (hc ▸ h)
          rw [hget1ne i hieq]
          exact hpos1 i (List.mem_cons_of_mem _ h)
        · simp at h
          subst h
          rw [hget1self]
          exact hremex
      · intro i hi hposi
        dsimp only at hi hposi ⊢
        by_cases hieq : i = actual
        · subst hieq
          exact List.mem_append_right _ (by simp)
        · rw [hget1ne i hieq] at hposi
          rcases List.mem_cons.mp (hmem1 i hi hposi) with h | h
          · exact absurd h hieq
          · exact List.mem_append_left _ h
      · dsimp only
        rw [List.nodup_append]
        refine ⟨hndtail, List.nodup_singleton _, ?_⟩
        intro a ha hb
        simp at hb
        subst hb
        exact hnotmem ha
      · intro i hi
        dsimp only at hi ⊢
        by_cases hieq : i = actual
        · subst hieq
          rw [hget1self]
          omega
        · rw [hget1ne i hieq]
          exact hinv.hrange i hi
      · intro i h1 h2
        dsimp only at h1 h2 ⊢
        have hieq : i ≠ actual := by omega
        rw [hget1ne i hieq]
        exact hinv.hvirgen i (by omega) h2
      · intro i hi hposi
        dsimp only at hi hposi ⊢
        by_cases hieq : i = actual
        · subst hieq
          exact hinv.hpend i hi hrem
        · rw [hget1ne i hieq] at hposi
          exact hinv.hpend i hi hposi
      · intro i hi hzi
        dsimp only at hi hzi ⊢
        have hieq : i ≠ actual := by
          intro hc
          subst hc
          rw [hget1self] at hzi
          omega
        rw [hget1ne i hieq] at hzi
        exact hinv.hfin i hi hzi
      · intro i hi hlti
        dsimp only at hi hlti ⊢
        by_cases hieq : i = actual
        · subst hieq
          rw [hget1self] at hlti ⊢
          exact hexti
        · rw [hget1ne i hieq] at hlti ⊢
          have := hinv.hprog i hi hlti
          omega
      · dsimp only
        have hcs := cuentaCeros_set s.tiempos_restantes actual
          (getI s.tiempos_restantes actual - ejec q s actual) hactrest
        rw [if_neg (by omega), if_neg hz] at hcs
        have := hinv.hcomp
        omega
    · dsimp only
    · dsimp only
    · dsimp only
      exact hsum
    · dsimp only
      omega

/-- One Round Robin iteration, from an invariant-satisfying state with work
remaining: the invariant, the list length and the input attributes are all
preserved, and the measure strictly decreases. -/
theorem rrStep_props {q : Int} {s : RRState}
    (hinv : RRInv q s) (hcomplt : s.completados < s.resultados.length) :
    RRInv q (rrStep q s) ∧
    (rrStep q s).resultados.length = s.resultados.length ∧
    (rrStep q s).resultados.map entrada = s.resultados.map entrada ∧
    ∀ A, (∀ p ∈ s.resultados, p.ti ≤ A) →
      medida A (rrStep q s) < medida A s := by
  cases hr : encolarLlegadas s.resultados s.tiempos_restantes s.reloj
      (s.resultados.length - s.indice) s.cola s.indice with
  | mk cola1 indice1 =>
    cases cola1 with
    | nil =>
      obtain ⟨hinv1, hA⟩ := rrIdle_props hinv hcomplt hr
      rw [rrStep_eq_idle hr]
      refine ⟨hinv1, rfl, rfl, ?_⟩
      intro A hbound
      have hlt := hA A hbound
      unfold medida
      dsimp only
      omega
    | cons actual colaResto =>
      obtain ⟨hinv1, hlen, hent, hsum, hrel⟩ := rrRun_props hinv hr
      refine ⟨hinv1, hlen, hent, ?_⟩
      intro A hbound
      unfold medida
      omega

/-- Along any successful Round Robin run the invariant is preserved, the
terminal state has no work remaining, and input attributes persist. -/
theorem rrLoop_post {q : Int} :
    ∀ (fuel : Nat) (s s' : RRState), RRInv q s →
      rrLoop q fuel s = some s' →
      RRInv q s' ∧ ¬ s'.completados < s'.resultados.length ∧
      s'.resultados.map entrada = s.resultados.map entrada
  | 0, s, s' => by simp [rrLoop]
  | fuel+1, s, s' => by
    intro hinv h
    rw [rrLoop] at h
    by_cases hc : s.completados < s.resultados.length
    · rw [if_pos hc] at h
      obtain ⟨hinv1, _, hent, _⟩ := rrStep_props hinv hc
      obtain ⟨ha, hb, hcpost⟩ := rrLoop_post fuel (rrStep q s) s' hinv1 h
      exact ⟨ha, hb, by rw [hcpost, hent]⟩
    · rw [if_neg hc] at h
      rw [Option.some_inj] at h
      subst h
      exact ⟨hinv, hc, rfl⟩

/-- In a terminal invariant-satisfying state, every process has finished:
remaining time 0, correct metrics, and at least `ceil(t/q)` dequeues. -/
theorem rrInv_final {q : Int} {s : RRState} (hinv : RRInv q s)
    (hdone : ¬ s.completados < s.resultados.length) :
    ∀ i < s.resultados.length, getI s.tiempos_restantes i = 0 ∧
      terminado (getP s.resultados i) ∧
      (getP s.resultados i).t ≤ q * (s.cuenta.getD i 0 : Int) := by
  have hle : cuentaCeros s.tiempos_restantes ≤ s.tiempos_restantes.length :=
    List.countP_le_length _
  have hall : ∀ i < s.tiempos_restantes.length, getI s.tiempos_restantes i = 0 := by
    rw [← cuentaCeros_eq_length]
    have h1 := hinv.hcomp
    have h2 := hinv.hrestLen
    omega
  intro i hi
  have hz := hall i (by rw [hinv.hrestLen]; exact hi)
  refine ⟨hz, hinv.hfin i hi hz, ?_⟩
  have := hinv.hcuenta i hi
  omega

theorem ti_bound_of_entrada {l l' : List Proceso}
    (h : l'.map entrada = l.map entrada) {A : Int}
    (hA : ∀ p ∈ l, p.ti ≤ A) : ∀ p ∈ l', p.ti ≤ A := by
  intro p hp
  have hmem : entrada p ∈ l'.map entrada := List.mem_map_of_mem _ hp
  rw [h] at hmem
  obtain ⟨p0, hp0, he⟩ := List.mem_map.mp hmem
  have hti : p0.ti = p.ti := congrArg (fun x => x.2.1) he
  rw [← hti]
  exact hA p0 hp0

/-- With fuel exceeding the measure, the Round Robin loop terminates. -/
theorem rrLoop_termina {q : Int} (A : Int) :
    ∀ (fuel : Nat) (s : RRState), RRInv q s →
      (∀ p ∈ s.resultados, p.ti ≤ A) →
      medida A s < fuel → (rrLoop q fuel s).isSome
  | 0, s => by
    intro _ _ h
    omega
  | fuel+1, s => by
    intro hinv hA hm
    rw [rrLoop]
    by_cases hc : s.completados < s.resultados.length
    · rw [if_pos hc]
      obtain ⟨hinv1, _, hent, hdec⟩ := rrStep_props hinv hc
      exact rrLoop_termina A fuel (rrStep q s) hinv1
        (ti_bound_of_entrada hent hA) (by have := hdec A hA; omega)
    · rw [if_neg hc]
      simp

theorem getI_map_t : ∀ (l : List Proceso) (i : Nat), i < l.length →
    getI (l.map (fun p => p.t)) i = (getP l i).t
  | [], i, h => by simp at h
  | x :: l, 0, _ => rfl
  | x :: l, i+1, h => getI_map_t l i (by simpa using h)

theorem getD_replicate_cero : ∀ (n i : Nat),
    (List.replicate n (0:Nat)).getD i 0 = 0
  | 0, _ => rfl
  | n+1, 0 => rfl
  | n+1, i+1 => getD_replicate_cero n i

/-- The initial Round Robin state satisfies the invariant. -/
theorem rrInv_inicial (ps : List Proceso) (q : Int) (hq : 0 < q)
    (hps : precondLista ps) : RRInv q (estadoInicial ps) := by
  have hlen : (ps.map copia).length = ps.length := List.length_map _ _
  have hprec : precondLista (ps.map copia) := by
    intro p hp
    obtain ⟨p0, hp0, rfl⟩ := List.mem_map.mp hp
    exact hps p0 hp0
  have hrest : ∀ i < (ps.map copia).length,
      getI ((ps.map copia).map (fun p => p.t)) i = (getP (ps.map copia) i).t :=
    fun i hi => getI_map_t (ps.map copia) i hi
  have htpos : ∀ i < (ps.map copia).length, 0 < (getP (ps.map copia) i).t :=
    fun i hi => (hprec _ (getP_mem (ps.map copia) i hi)).2
  refine
    { hq := hq
      hrestLen := by simp [estadoInicial]
      hcuentaLen := by simp [estadoInicial]
      hreloj := le_refl 0
      hprec := hprec
      hindice := by simp [estadoInicial]
      harr := by intro i hi; simp [estadoInicial] at hi
      hcolaLt := by intro i hi; simp [estadoInicial] at hi
      hcolaPos := by intro i hi; simp [estadoInicial] at hi
      hcolaMem := by intro i hi; simp [estadoInicial] at hi
      hnodup := List.nodup_nil
      hrange := ?_
      hvirgen := ?_
      hpend := ?_
      hfin := ?_
      hprog := ?_
      hcuenta := ?_
      hcomp := ?_ }
  · intro i hi
    dsimp only [estadoInicial] at hi ⊢
    rw [hrest i hi]
    exact ⟨le_of_lt (htpos i hi), le_refl _⟩
  · intro i _ hi
    dsimp only [estadoInicial] at hi ⊢
    exact hrest i hi
  · intro i hi _
    dsimp only [estadoInicial] at hi ⊢
    obtain ⟨p0, _, he⟩ := List.mem_map.mp (getP_mem (ps.map copia) i hi)
    rw [← he]
    rfl
  · intro i hi hz
    dsimp only [estadoInicial] at hi hz
    rw [hrest i hi] at hz
    have := htpos i hi
    omega
  · intro i hi hlt
    dsimp only [estadoInicial] at hi hlt ⊢
    rw [hrest i hi] at hlt
    omega
  · intro i hi
    dsimp only [estadoInicial] at hi ⊢
    rw [getD_replicate_cero]
    rw [hrest i hi]
    simp
  · dsimp only [estadoInicial]
    symm
    unfold cuentaCeros
    rw [List.countP_eq_zero]
    intro a ha
    obtain ⟨p0, hp0, he⟩ := List.mem_map.mp ha
    have := (hprec p0 hp0).2
    simp
    omega

/-! ### Top-level corollaries -/

theorem entradas_copia (ps : List Proceso) :
    (ps.map copia).map entrada = ps.map entrada := by
  rw [List.map_map]
  rfl

theorem cicloFL_paso (sel : Int → List Proceso → Option (List Proceso × Int))
    (fuel : Nat) (res : List Proceso) (reloj : Int) (comp : Nat)
    (res' : List Proceso) (reloj' : Int)
    (hc : comp < res.length) (hs : sel reloj res = some (res', reloj')) :
    cicloFL sel (fuel+1) res reloj comp = cicloFL sel fuel res' reloj' (comp+1) := by
  rw [cicloFL, if_pos hc, hs]

theorem cicloFL_idle (sel : Int → List Proceso → Option (List Proceso × Int))
    (fuel : Nat) (res : List Proceso) (reloj : Int) (comp : Nat) (m : Int)
    (hc : comp < res.length) (hs : sel reloj res = none)
    (hm : minLlegadaPendiente res = some m) :
    cicloFL sel (fuel+1) res reloj comp = cicloFL sel fuel res m comp := by
  rw [cicloFL, if_pos hc, hs, hm]

theorem cicloFL_alto (sel : Int → List Proceso → Option (List Proceso × Int))
    (fuel : Nat) (res : List Proceso) (reloj : Int) (comp : Nat)
    (hc : ¬ comp < res.length) :
    cicloFL sel (fuel+1) res reloj comp = some res := by
  rw [cicloFL, if_neg hc]

/-- FIFO: any successful run finishes every record with correct metrics and
preserves the input attributes position by position. -/
theorem fifo_correcto (ps : List Proceso) (fuel : Nat) (res : List Proceso)
    (hps : precondLista ps) (h : fifo ps fuel = some res) :
    (∀ p ∈ res, terminado p) ∧ res.map entrada = ps.map entrada := by
  have hinv := inv_inicial ps hps
  constructor
  · exact cicloFL_post runFirst_selSpec fuel (ps.map copia) 0 0 res hinv h
  · rw [cicloFL_entrada runFirst_selSpec fuel (ps.map copia) 0 0 res h]
    exact entradas_copia ps

/-- LIFO: any successful run finishes every record with correct metrics and
preserves the input attributes position by position. -/
theorem lifo_correcto (ps : List Proceso) (fuel : Nat) (res : List Proceso)
    (hps : precondLista ps) (h : lifo ps fuel = some res) :
    (∀ p ∈ res, terminado p) ∧ res.map entrada = ps.map entrada := by
  have hinv := inv_inicial ps hps
  constructor
  · exact cicloFL_post runLast_selSpec fuel (ps.map copia) 0 0 res hinv h
  · rw [cicloFL_entrada runLast_selSpec fuel (ps.map copia) 0 0 res h]
    exact entradas_copia ps

theorem fifo_termina (ps : List Proceso) (hps : precondLista ps) :
    (fifo ps (2*ps.length+1)).isSome := by
  have := cicloFL_termina runFirst_selSpec ps.length (2*ps.length+1)
    (ps.map copia) 0 0 (inv_inicial ps hps) (by simp) (by omega)
  exact this

theorem lifo_termina (ps : List Proceso) (hps : precondLista ps) :
    (lifo ps (2*ps.length+1)).isSome := by
  have := cicloFL_termina runLast_selSpec ps.length (2*ps.length+1)
    (ps.map copia) 0 0 (inv_inicial ps hps) (by simp) (by omega)
  exact this

/-- Round Robin: any successful run finishes every record with correct
metrics and preserves the input attributes position by position. -/
theorem rr_correcto (ps : List Proceso) (q : Int) (fuel : Nat)
    (res : List Proceso) (hq : 0 < q) (hps : precondLista ps)
    (h : round_robin ps q fuel = some res) :
    (∀ p ∈ res, terminado p) ∧ res.map entrada = ps.map entrada := by
  obtain ⟨s', hs', hres⟩ := Option.map_eq_some'.mp h
  obtain ⟨hinv', hdone, hent⟩ :=
    rrLoop_post fuel (estadoInicial ps) s' (rrInv_inicial ps q hq hps) hs'
  constructor
  · intro p hp
    rw [← hres] at hp
    obtain ⟨i, hi, hget⟩ := mem_getP s'.resultados p hp
    have := (rrInv_final hinv' hdone i hi).2.1
    rw [hget] at this
    exact this
  · rw [← hres, hent]
    exact entradas_copia ps

/-- Fuel sufficient for any Round Robin run: total burst plus the largest
arrival plus one. -/
def fuelRR (ps : List Proceso) : Nat :=
  medida (maxLlegada (ps.map copia)) (estadoInicial ps) + 1

theorem round_robin_termina (ps : List Proceso) (q : Int)
    (hq : 0 < q) (hps : precondLista ps) :
    (round_robin ps q (fuelRR ps)).isSome := by
  have hA : ∀ p ∈ (estadoInicial ps).resultados, p.ti ≤ maxLlegada (ps.map copia) := by
    intro p hp
    exact le_maxLlegada _ p hp
  have := rrLoop_termina (maxLlegada (ps.map copia)) (fuelRR ps)
    (estadoInicial ps) (rrInv_inicial ps q hq hps) hA (by unfold fuelRR; omega)
  unfold round_robin
  cases hcase : rrLoop q (fuelRR ps) (estadoInicial ps) with
  | none => rw [hcase] at this; exact absurd this (by simp)
  | some s' => simp

/-- Round Robin dequeue counts: at termination every process of burst `t`
was popped at least `ceil(t/q)` times. -/
theorem rr_cuenta_final (ps : List Proceso) (q : Int) (fuel : Nat)
    (s' : RRState) (hq : 0 < q) (hps : precondLista ps)
    (h : rrLoop q fuel (estadoInicial ps) = some s') :
    ∀ i < s'.resultados.length,
      (getP s'.resultados i).t ≤ q * (s'.cuenta.getD i 0 : Int) ∧
      ((getP s'.resultados i).t + q - 1) / q ≤ (s'.cuenta.getD i 0 : Int) := by
  obtain ⟨hinv', hdone, _⟩ :=
    rrLoop_post fuel (estadoInicial ps) s' (rrInv_inicial ps q hq hps) h
  intro i hi
  have hmul := (rrInv_final hinv' hdone i hi).2.2
  refine ⟨hmul, ?_⟩
  have h1 : (getP s'.resultados i).t + q - 1 ≤
      q * (s'.cuenta.getD i 0 : Int) + (q - 1) := by omega
  have h2 : ((getP s'.resultados i).t + q - 1) / q ≤
      (q * (s'.cuenta.getD i 0 : Int) + (q - 1)) / q :=
    Int.ediv_le_ediv hq h1
  have h3 : (q * (s'.cuenta.getD i 0 : Int) + (q - 1)) / q =
      (s'.cuenta.getD i 0 : Int) + (q - 1) / q := by
    rw [Int.add_comm, Int.add_mul_ediv_left _ _ (by omega : q ≠ 0)]
    omega
  have h4 : (q - 1) / q = 0 :=
    Int.ediv_eq_zero_of_lt (by omega) (by omega)
  omega

/-- FIFO on a one-process input: completion is exactly `arrival + burst`. -/
theorem fifo_solo (p : Proceso) (h0 : 0 ≤ p.ti) (ht : 0 < p.t) :
    fifo [p] 4 = some [ejecutar (copia p) p.ti] ∧
    (ejecutar (copia p) p.ti).tf = p.ti + p.t := by
  have htf : (ejecutar (copia p) p.ti).tf = p.ti + p.t := by
    rw [ejecutar_tf]
    rfl
  refine ⟨?_, htf⟩
  show cicloFL runFirst (3+1) [copia p] 0 0 = some [ejecutar (copia p) p.ti]
  by_cases hti : p.ti ≤ 0
  · have hti0 : p.ti = 0 := le_antisymm hti h0
    have hl : listo 0 (copia p) = true := by
      rw [listo_iff]
      exact ⟨rfl, by show p.ti ≤ 0; exact hti⟩
    have hsel : runFirst 0 [copia p] =
        some ([ejecutar (copia p) 0], (ejecutar (copia p) 0).tf) := by
      simp [runFirst, hl]
    rw [cicloFL_paso runFirst 3 [copia p] 0 0
      [ejecutar (copia p) 0] (ejecutar (copia p) 0).tf (by simp) hsel]
    show cicloFL runFirst (2+1) _ _ _ = _
    rw [cicloFL_alto runFirst 2 _ _ 1 (by simp)]
    rw [hti0]
  · have hl : listo 0 (copia p) = false := by
      rw [listo_false_iff]
      intro hcon
      exact hti hcon.2
    have hsel : runFirst 0 [copia p] = none := by
      simp [runFirst, hl]
    have hmin : minLlegadaPendiente [copia p] = some p.ti := rfl
    rw [cicloFL_idle runFirst 3 [copia p] 0 0 p.ti (by simp) hsel hmin]
    have hl2 : listo p.ti (copia p) = true := by
      rw [listo_iff]
      exact ⟨rfl, le_refl _⟩
    have hsel2 : runFirst p.ti [copia p] =
        some ([ejecutar (copia p) p.ti], (ejecutar (copia p) p.ti).tf) := by
      simp [runFirst, hl2]
    show cicloFL runFirst (2+1) _ _ _ = _
    rw [cicloFL_paso runFirst 2 [copia p] p.ti 0
      [ejecutar (copia p) p.ti] (ejecutar (copia p) p.ti).tf (by simp) hsel2]
    show cicloFL runFirst (1+1) _ _ _ = _
    rw [cicloFL_alto runFirst 1 _ _ 1 (by simp)]

/-- LIFO on a one-process input: completion is exactly `arrival + burst`. -/
theorem lifo_solo (p : Proceso) (h0 : 0 ≤ p.ti) (ht : 0 < p.t) :
    lifo [p] 4 = some [ejecutar (copia p) p.ti] ∧
    (ejecutar (copia p) p.ti).tf = p.ti + p.t := by
  have htf : (ejecutar (copia p) p.ti).tf = p.ti + p.t := by
    rw [ejecutar_tf]
    rfl
  refine ⟨?_, htf⟩
  show cicloFL runLast (3+1) [copia p] 0 0 = some [ejecutar (copia p) p.ti]
  by_cases hti : p.ti ≤ 0
  · have hti0 : p.ti = 0 := le_antisymm hti h0
    have hl : listo 0 (copia p) = true := by
      rw [listo_iff]
      exact ⟨rfl, by show p.ti ≤ 0; exact hti⟩
    have hsel : runLast 0 [copia p] =
        some ([ejecutar (copia p) 0], (ejecutar (copia p) 0).tf) := by
      simp [runLast, hl]
    rw [cicloFL_paso runLast 3 [copia p] 0 0
      [ejecutar (copia p) 0] (ejecutar (copia p) 0).tf (by simp) hsel]
    show cicloFL runLast (2+1) _ _ _ = _
    rw [cicloFL_alto runLast 2 _ _ 1 (by simp)]
    rw [hti0]
  · have hl : listo 0 (copia p) = false := by
      rw [listo_false_iff]
      intro hcon
      exact hti hcon.2
    have hsel : runLast 0 [copia p] = none := by
      simp [runLast, hl]
    have hmin : minLlegadaPendiente [copia p] = some p.ti := rfl
    rw [cicloFL_idle runLast 3 [copia p] 0 0 p.ti (by simp) hsel hmin]
    have hl2 : listo p.ti (copia p) = true := by
      rw [listo_iff]
      exact ⟨rfl, le_refl _⟩
    have hsel2 : runLast p.ti [copia p] =
        some ([ejecutar (copia p) p.ti], (ejecutar (copia p) p.ti).tf) := by
      simp [runLast, hl2]
    show cicloFL runLast (2+1) _ _ _ = _
    rw [cicloFL_paso runLast 2 [copia p] p.ti 0
      [ejecutar (copia p) p.ti] (ejecutar (copia p) p.ti).tf (by simp) hsel2]
    show cicloFL runLast (1+1) _ _ _ = _
    rw [cicloFL_alto runLast 1 _ _ 1 (by simp)]

/-! ### Claim theorems -/

/-- C1 counterexample: for input `[("A",0,5),("B",1,3)]` with quantum 2 the
code gives A completion 7 and B completion 8, not B at 7 and A at 8 as the
claim states. -/
theorem c1_contra :
    (round_robin escenario4 2 9).map (fun l => l.map Proceso.tf) = some [7, 8] ∧
    (round_robin escenario4 2 9).map (fun l => l.map Proceso.tf) ≠ some [8, 7] := by
  have h : (round_robin escenario4 2 9).map (fun l => l.map Proceso.tf) =
      some [7, 8] := by
    with_unfolding_all rfl
  refine ⟨h, ?_⟩
  rw [h]
  simp

/-- C1 (amended): the admit phase only appends to the tail of the existing
ready queue, and an unfinished just-run process is re-appended at the end
of its own iteration — before the next iteration's admit phase — so a
process whose arrival falls within the just-executed slice is enqueued
behind the just-run process, not ahead of it; consequently, for
`[("A",0,5),("B",1,3)]` with quantum 2, A completes at clock 7 and B at
clock 8. -/
theorem c1_amendado :
    (∀ (res : List Proceso) (rest : List Int) (reloj : Int) (k : Nat)
        (cola : List Nat) (indice : Nat),
      ∃ nuevos, (encolarLlegadas res rest reloj k cola indice).1 = cola ++ nuevos) ∧
    (∀ (q : Int) (s : RRState) (actual : Nat) (colaResto : List Nat) (indice1 : Nat),
      encolarLlegadas s.resultados s.tiempos_restantes s.reloj
          (s.resultados.length - s.indice) s.cola s.indice =
        (actual :: colaResto, indice1) →
      ¬ getI s.tiempos_restantes actual - ejec q s actual = 0 →
      (rrStep q s).cola = colaResto ++ [actual]) ∧
    round_robin escenario4 2 9 =
      some [{ id := "A", ti := 0, t := 5, tf := 7, T := 7, E := 2, I := 5/7,
              tiempo_restante := 5 },
            { id := "B", ti := 1, t := 3, tf := 8, T := 7, E := 4, I := 3/7,
              tiempo_restante := 3 }] := by
  refine ⟨?_, ?_, by with_unfolding_all rfl⟩
  · intro res rest reloj k cola indice
    obtain ⟨⟨nuevos, hn1, _⟩, _, _⟩ := encolar_spec res rest reloj k cola indice
    exact ⟨nuevos, hn1⟩
  · intro q s actual colaResto indice1 hr hz
    rw [rrStep_eq_circ hr hz]
    rfl

theorem c1_amendado_testigo :
    (rrStep 2 (estadoInicial escenario4)).cola = [] ++ [0] :=
  c1_amendado.2.1 2 (estadoInicial escenario4) 0 [] 1
    (by with_unfolding_all rfl) (by decide)

/-- C2: the FIFO core is the `cicloFL` loop over the `runFirst` pass; a
pass fails exactly when no process is unfinished with `arrival ≤ clock`; a
successful pass replaces precisely the first qualifying process in input
order (every earlier process fails the test, regardless of arrival
ordering), sets its completion to `clock + burst`, and returns that
completion as the new clock; and the outer loop then continues from that
updated list and clock with one more process completed. -/
theorem c2_fifo_seleccion :
    (∀ ps fuel, fifo ps fuel = cicloFL runFirst fuel (ps.map copia) 0 0) ∧
    (∀ reloj (ps : List Proceso),
      runFirst reloj ps = none ↔ ∀ p ∈ ps, ¬(p.tf = 0 ∧ p.ti ≤ reloj)) ∧
    (∀ reloj (ps : List Proceso) pr, runFirst reloj ps = some pr →
      ∃ l1 p l2, ps = l1 ++ p :: l2 ∧
        (∀ x ∈ l1, ¬(x.tf = 0 ∧ x.ti ≤ reloj)) ∧
        p.tf = 0 ∧ p.ti ≤ reloj ∧
        pr.1 = l1 ++ ejecutar p reloj :: l2 ∧
        (ejecutar p reloj).tf = reloj + p.t ∧
        pr.2 = (ejecutar p reloj).tf) ∧
    (∀ fuel res reloj comp res' reloj', comp < res.length →
      runFirst reloj res = some (res', reloj') →
      cicloFL runFirst (fuel+1) res reloj comp =
        cicloFL runFirst fuel res' reloj' (comp+1)) := by
  refine ⟨fun ps fuel => rfl, ?_, ?_, ?_⟩
  · intro reloj ps
    rw [runFirst_eq_none]
    constructor
    · intro h p hp
      rw [← listo_false_iff]
      exact h p hp
    · intro h p hp
      rw [listo_false_iff]
      exact h p hp
  · intro reloj ps pr h
    obtain ⟨l1, p, l2, h1, h2, h3, h4, h5⟩ := runFirst_some reloj ps pr h
    obtain ⟨h3a, h3b⟩ := (listo_iff reloj p).mp h3
    refine ⟨l1, p, l2, h1, ?_, h3a, h3b, h4, ejecutar_tf p reloj, ?_⟩
    · intro x hx
      rw [← listo_false_iff]
      exact h2 x hx
    · rw [ejecutar_tf]
      exact h5
  · intro fuel res reloj comp res' reloj' hc hs
    exact cicloFL_paso runFirst fuel res reloj comp res' reloj' hc hs

theorem c2_testigo :
    cicloFL runFirst (3+1) (escenario2.map copia) 0 0 =
      cicloFL runFirst 3
        [ejecutar (copia (Proceso.nuevo "A" 0 3)) 0, copia (Proceso.nuevo "B" 5 2)]
        3 1 :=
  c2_fifo_seleccion.2.2.2 3 (escenario2.map copia) 0 0
    [ejecutar (copia (Proceso.nuevo "A" 0 3)) 0, copia (Proceso.nuevo "B" 5 2)]
    3 (by decide) (by with_unfolding_all rfl)

/-- C3: the LIFO core is the same `cicloFL` loop as FIFO except that its
pass is `runLast`, which replaces precisely the last qualifying process in
input order (every later process fails the test); on
`[("A",0,3),("B",0,2)]` it runs B over `[0,2]` and then A over `[2,5]`,
giving B completion 2 and A completion 5. -/
theorem c3_lifo_seleccion :
    (∀ ps fuel, lifo ps fuel = cicloFL runLast fuel (ps.map copia) 0 0) ∧
    (∀ ps fuel, fifo ps fuel = cicloFL runFirst fuel (ps.map copia) 0 0) ∧
    (∀ reloj (ps : List Proceso),
      runLast reloj ps = none ↔ ∀ p ∈ ps, ¬(p.tf = 0 ∧ p.ti ≤ reloj)) ∧
    (∀ reloj (ps : List Proceso) pr, runLast reloj ps = some pr →
      ∃ l1 p l2, ps = l1 ++ p :: l2 ∧
        (∀ x ∈ l2, ¬(x.tf = 0 ∧ x.ti ≤ reloj)) ∧
        p.tf = 0 ∧ p.ti ≤ reloj ∧
        pr.1 = l1 ++ ejecutar p reloj :: l2 ∧
        pr.2 = reloj + p.t) ∧
    lifo escenario3 6 =
      some [{ id := "A", ti := 0, t := 3, tf := 5, T := 5, E := 2, I := 3/5,
              tiempo_restante := 3 },
            { id := "B", ti := 0, t := 2, tf := 2, T := 2, E := 0, I := 1,
              tiempo_restante := 2 }] := by
  refine ⟨fun ps fuel => rfl, fun ps fuel => rfl, ?_, ?_, by with_unfolding_all rfl⟩
  · intro reloj ps
    rw [runLast_eq_none]
    constructor
    · intro h p hp
      rw [← listo_false_iff]
      exact h p hp
    · intro h p hp
      rw [listo_false_iff]
      exact h p hp
  · intro reloj ps pr h
    obtain ⟨l1, p, l2, h1, h2, h3, h4, h5⟩ := runLast_some reloj ps pr h
    obtain ⟨h3a, h3b⟩ := (listo_iff reloj p).mp h3
    refine ⟨l1, p, l2, h1, ?_, h3a, h3b, h4, h5⟩
    intro x hx
    rw [← listo_false_iff]
    exact h2 x hx

theorem c3_testigo :
    (lifo escenario3 6).map (fun l => l.map Proceso.tf) = some [5, 2] := by
  rw [c3_lifo_seleccion.2.2.2.2]
  with_unfolding_all rfl

/-- C4: in the FIFO/LIFO loop, when the pass finds no qualifying process
the next iteration keeps the same list (no partial execution) and a clock
equal to the value produced by `minLlegadaPendiente`, which is exactly the
minimum arrival among unfinished processes (attained by one of them and a
lower bound for all of them), and which exists whenever some process is
unfinished; Round Robin instead, when its ready queue is empty after the
admit phase, advances the clock by exactly 1 and changes nothing else. -/
theorem c4_salto_inactivo :
    (∀ sel fuel (res : List Proceso) reloj comp m, comp < res.length →
      sel reloj res = none → minLlegadaPendiente res = some m →
      cicloFL sel (fuel+1) res reloj comp = cicloFL sel fuel res m comp) ∧
    (∀ (res : List Proceso) m, minLlegadaPendiente res = some m →
      (∃ p ∈ res, p.tf = 0 ∧ p.ti = m) ∧ ∀ p ∈ res, p.tf = 0 → m ≤ p.ti) ∧
    (∀ res : List Proceso, (∃ p ∈ res, p.tf = 0) →
      (minLlegadaPendiente res).isSome) ∧
    (∀ (q : Int) (s : RRState) (indice1 : Nat),
      encolarLlegadas s.resultados s.tiempos_restantes s.reloj
          (s.resultados.length - s.indice) s.cola s.indice = ([], indice1) →
      rrStep q s =
        { s with cola := [], indice := indice1, reloj := s.reloj + 1 }) := by
  refine ⟨?_, ?_, ?_, ?_⟩
  · intro sel fuel res reloj comp m hc hs hm
    exact cicloFL_idle sel fuel res reloj comp m hc hs hm
  · intro res m hm
    exact minLlegadaPendiente_spec res m hm
  · intro res h
    exact minLlegadaPendiente_isSome res h
  · intro q s indice1 hr
    exact rrStep_eq_idle hr

theorem c4_testigo :
    cicloFL runFirst (1+1) [copia (Proceso.nuevo "B" 5 2)] 0 0 =
      cicloFL runFirst 1 [copia (Proceso.nuevo "B" 5 2)] 5 0 ∧
    (rrStep 3 (estadoInicial [Proceso.nuevo "A" 3 2])).reloj = 1 := by
  constructor
  · exact c4_salto_inactivo.1 runFirst 1 [copia (Proceso.nuevo "B" 5 2)] 0 0 5
      (by decide) (by with_unfolding_all rfl) (by with_unfolding_all rfl)
  · rw [c4_salto_inactivo.2.2.2 3 (estadoInicial [Proceso.nuevo "A" 3 2]) 0
      (by with_unfolding_all rfl)]
    with_unfolding_all rfl

theorem rrStep_entrada (q : Int) (s : RRState) :
    (rrStep q s).resultados.map entrada = s.resultados.map entrada := by
  cases hr : encolarLlegadas s.resultados s.tiempos_restantes s.reloj
      (s.resultados.length - s.indice) s.cola s.indice with
  | mk cola1 indice1 =>
    cases cola1 with
    | nil => rw [rrStep_eq_idle hr]
    | cons actual colaResto =>
      by_cases hz : getI s.tiempos_restantes actual - ejec q s actual = 0
      · rw [rrStep_eq_fin hr hz]
        simp only [rrFin]
        exact map_entrada_set _ _ _ (metricas_entrada _ _)
      · rw [rrStep_eq_circ hr hz]
        rfl

theorem rrLoop_entrada (q : Int) :
    ∀ (fuel : Nat) (s s' : RRState), rrLoop q fuel s = some s' →
      s'.resultados.map entrada = s.resultados.map entrada
  | 0, s, s' => by simp [rrLoop]
  | fuel+1, s, s' => by
    intro h
    rw [rrLoop] at h
    by_cases hc : s.completados < s.resultados.length
    · rw [if_pos hc] at h
      rw [rrLoop_entrada q fuel _ s' h, rrStep_entrada q s]
    · rw [if_neg hc] at h
      rw [Option.some_inj] at h
      rw [← h]

theorem copia_por_entrada (l : List Proceso) :
    l.map copia = (l.map entrada).map (fun e => Proceso.nuevo e.1 e.2.1 e.2.2) := by
  rw [List.map_map]
  rfl

theorem precond_of_entrada {l l' : List Proceso}
    (h : l'.map entrada = l.map entrada)
    (hA : precondLista l) : precondLista l' := by
  intro p hp
  have hmem : entrada p ∈ l'.map entrada := List.mem_map_of_mem _ hp
  rw [h] at hmem
  obtain ⟨p0, hp0, he⟩ := List.mem_map.mp hmem
  have hti : p0.ti = p.ti := congrArg (fun x => x.2.1) he
  have ht : p0.t = p.t := congrArg (fun x => x.2.2) he
  rw [← hti, ← ht]
  exact hA p0 hp0

/-- C5: for every process in every successful output of the three
schedulers (arrivals nonnegative, bursts positive, quantum positive for
Round Robin), `T = tf - ti`, `E = T - t`, and `I = t / T` whenever
`T ≠ 0`. -/
theorem c5_metricas (ps : List Proceso) (hps : precondLista ps) :
    (∀ fuel res, fifo ps fuel = some res → ∀ p ∈ res,
      p.T = p.tf - p.ti ∧ p.E = p.T - p.t ∧
        (p.T ≠ 0 → p.I = (p.t : Rat) / (p.T : Rat))) ∧
    (∀ fuel res, lifo ps fuel = some res → ∀ p ∈ res,
      p.T = p.tf - p.ti ∧ p.E = p.T - p.t ∧
        (p.T ≠ 0 → p.I = (p.t : Rat) / (p.T : Rat))) ∧
    (∀ (q : Int) fuel res, 0 < q → round_robin ps q fuel = some res →
      ∀ p ∈ res, p.T = p.tf - p.ti ∧ p.E = p.T - p.t ∧
        (p.T ≠ 0 → p.I = (p.t : Rat) / (p.T : Rat))) := by
  refine ⟨?_, ?_, ?_⟩
  · intro fuel res h p hp
    obtain ⟨_, _, hT, hE, _, hI⟩ := (fifo_correcto ps fuel res hps h).1 p hp
    exact ⟨hT, hE, fun _ => hI⟩
  · intro fuel res h p hp
    obtain ⟨_, _, hT, hE, _, hI⟩ := (lifo_correcto ps fuel res hps h).1 p hp
    exact ⟨hT, hE, fun _ => hI⟩
  · intro q fuel res hq h p hp
    obtain ⟨_, _, hT, hE, _, hI⟩ := (rr_correcto ps q fuel res hq hps h).1 p hp
    exact ⟨hT, hE, fun _ => hI⟩

/-- The FIFO output record of scenario 1. -/
def regA : Proceso :=
  { id := "A", ti := 0, t := 5, tf := 5, T := 5, E := 0, I := 1,
    tiempo_restante := 5 }

theorem c5_testigo :
    regA.T = regA.tf - regA.ti ∧ regA.E = regA.T - regA.t ∧
    (regA.T ≠ 0 → regA.I = (regA.t : Rat) / (regA.T : Rat)) :=
  (c5_metricas escenario1 (by unfold precondLista; decide)).1 4 [regA]
    (by with_unfolding_all rfl) regA (by simp)

/-- C6 counterexample: in the two-process input `[("A",0,3),("B",5,2)]`
process B is not the sole process and still has
`completion = arrival + burst` (7 = 5 + 2), so equality does not hold
"exactly when" (only when) the process is sole. -/
theorem c6_contra :
    escenario2.length = 2 ∧
    fifo escenario2 6 = some
      [{ id := "A", ti := 0, t := 3, tf := 3, T := 3, E := 0, I := 1,
         tiempo_restante := 3 },
       { id := "B", ti := 5, t := 2, tf := 7, T := 2, E := 0, I := 1,
         tiempo_restante := 2 }] ∧
    (7 : Int) = 5 + 2 := by
  refine ⟨rfl, ?_, by decide⟩
  with_unfolding_all rfl

/-- C6 (amended): for every successful output of the three schedulers
(arrivals nonnegative, bursts positive, quantum positive),
`completion ≥ arrival + burst`, equivalently `waiting ≥ 0`; and under FIFO
and LIFO equality holds whenever the process is the sole process of the
input (though it can also hold in larger inputs). -/
theorem c6_amendado (ps : List Proceso) (hps : precondLista ps) :
    (∀ fuel res, fifo ps fuel = some res → ∀ p ∈ res,
      p.ti + p.t ≤ p.tf ∧ 0 ≤ p.E) ∧
    (∀ fuel res, lifo ps fuel = some res → ∀ p ∈ res,
      p.ti + p.t ≤ p.tf ∧ 0 ≤ p.E) ∧
    (∀ (q : Int) fuel res, 0 < q → round_robin ps q fuel = some res →
      ∀ p ∈ res, p.ti + p.t ≤ p.tf ∧ 0 ≤ p.E) ∧
    (∀ p : Proceso, ps = [p] →
      fifo ps 4 = some [ejecutar (copia p) p.ti] ∧
      lifo ps 4 = some [ejecutar (copia p) p.ti] ∧
      (ejecutar (copia p) p.ti).tf = p.ti + p.t) := by
  refine ⟨?_, ?_, ?_, ?_⟩
  · intro fuel res h p hp
    obtain ⟨_, hsum, hT, hE, ht, _⟩ := (fifo_correcto ps fuel res hps h).1 p hp
    exact ⟨hsum, by omega⟩
  · intro fuel res h p hp
    obtain ⟨_, hsum, hT, hE, ht, _⟩ := (lifo_correcto ps fuel res hps h).1 p hp
    exact ⟨hsum, by omega⟩
  · intro q fuel res hq h p hp
    obtain ⟨_, hsum, hT, hE, ht, _⟩ := (rr_correcto ps q fuel res hq hps h).1 p hp
    exact ⟨hsum, by omega⟩
  · intro p hp
    subst hp
    have hpre := hps p (List.mem_cons_self p [])
    obtain ⟨hf, htf⟩ := fifo_solo p hpre.1 hpre.2
    obtain ⟨hl, _⟩ := lifo_solo p hpre.1 hpre.2
    exact ⟨hf, hl, htf⟩

theorem c6_testigo :
    fifo escenario1 4 =
      some [ejecutar (copia (Proceso.nuevo "A" 0 5)) (Proceso.nuevo "A" 0 5).ti] ∧
    lifo escenario1 4 =
      some [ejecutar (copia (Proceso.nuevo "A" 0 5)) (Proceso.nuevo "A" 0 5).ti] ∧
    (ejecutar (copia (Proceso.nuevo "A" 0 5)) (Proceso.nuevo "A" 0 5).ti).tf =
      (Proceso.nuevo "A" 0 5).ti + (Proceso.nuevo "A" 0 5).t :=
  (c6_amendado escenario1 (by unfold precondLista; decide)).2.2.2 (Proceso.nuevo "A" 0 5) rfl

/-- C7: under Round Robin with quantum `q > 0` (and valid inputs), every
terminal state gives each process at least `ceil(t/q)` dequeues (stated
both as `(t+q-1)/q ≤ count` and as `t ≤ q*count`), and every dequeue
advances the clock by exactly `min(q, remaining)` while decrementing that
process's remaining time by the same amount. -/
theorem c7_rondas (ps : List Proceso) (q : Int) (hq : 0 < q)
    (hps : precondLista ps) :
    (∀ fuel s', rrLoop q fuel (estadoInicial ps) = some s' →
      ∀ i < s'.resultados.length,
        ((getP s'.resultados i).t + q - 1) / q ≤ (s'.cuenta.getD i 0 : Int) ∧
        (getP s'.resultados i).t ≤ q * (s'.cuenta.getD i 0 : Int)) ∧
    (∀ s : RRState, RRInv q s →
      ∀ actual colaResto indice1,
        encolarLlegadas s.resultados s.tiempos_restantes s.reloj
            (s.resultados.length - s.indice) s.cola s.indice =
          (actual :: colaResto, indice1) →
        (rrStep q s).reloj = s.reloj + min q (getI s.tiempos_restantes actual) ∧
        getI (rrStep q s).tiempos_restantes actual =
          getI s.tiempos_restantes actual - min q (getI s.tiempos_restantes actual)) := by
  constructor
  · intro fuel s' h i hi
    obtain ⟨hmul, hceil⟩ := rr_cuenta_final ps q fuel s' hq hps h i hi
    exact ⟨hceil, hmul⟩
  · intro s hinv actual colaResto indice1 hr
    obtain ⟨hmono, hind1, _, hlt1, _, _, _, _⟩ := admision_facts hinv hr
    have hactrest : actual < s.tiempos_restantes.length := by
      have := hlt1 actual (List.mem_cons_self _ _)
      rw [hinv.hrestLen]
      omega
    by_cases hz : getI s.tiempos_restantes actual - ejec q s actual = 0
    · rw [rrStep_eq_fin hr hz]
      exact ⟨rfl, getI_set_self _ _ _ hactrest⟩
    · rw [rrStep_eq_circ hr hz]
      exact ⟨rfl, getI_set_self _ _ _ hactrest⟩

/-- The terminal Round Robin state of scenario 4 with quantum 2. -/
def s4final : RRState :=
  { resultados := [{ id := "A", ti := 0, t := 5, tf := 7, T := 7, E := 2,
                     I := 5/7, tiempo_restante := 5 },
                   { id := "B", ti := 1, t := 3, tf := 8, T := 7, E := 4,
                     I := 3/7, tiempo_restante := 3 }]
    tiempos_restantes := [0, 0], reloj := 8, completados := 2, cola := [],
    indice := 2, cuenta := [3, 2] }

theorem c7_testigo :
    ((getP s4final.resultados 0).t + 2 - 1) / 2 ≤ (s4final.cuenta.getD 0 0 : Int) ∧
    (getP s4final.resultados 0).t ≤ 2 * (s4final.cuenta.getD 0 0 : Int) :=
  (c7_rondas escenario4 2 (by decide) (by unfold precondLista; decide)).1 9 s4final
    (by with_unfolding_all rfl) 0 (by decide)

/-- C8: on valid inputs (arrivals nonnegative, bursts positive, quantum
positive) all three schedulers terminate — FIFO and LIFO within
`2n + 1` loop iterations and Round Robin within total-burst plus
largest-arrival plus one iterations. -/
theorem c8_terminacion (ps : List Proceso) (q : Int) (hq : 0 < q)
    (hps : precondLista ps) :
    (∃ res, fifo ps (2*ps.length+1) = some res) ∧
    (∃ res, lifo ps (2*ps.length+1) = some res) ∧
    (∃ res, round_robin ps q (fuelRR ps) = some res) := by
  refine ⟨?_, ?_, ?_⟩
  · exact Option.isSome_iff_exists.mp (fifo_termina ps hps)
  · exact Option.isSome_iff_exists.mp (lifo_termina ps hps)
  · exact Option.isSome_iff_exists.mp (round_robin_termina ps q hq hps)

theorem c8_testigo :
    ∃ res, fifo escenario4 (2*escenario4.length+1) = some res :=
  (c8_terminacion escenario4 2 (by decide) (by unfold precondLista; decide)).1

/-- C9: each scheduler reads only the input attributes (id, arrival,
burst) of its argument — two inputs that agree on those attributes produce
identical outputs, so a run cannot observe, and in this functional model
cannot alter, any other state — and each scheduler's output preserves the
input attributes of every record, position by position. -/
theorem c9_copia_privada :
    (∀ (ps qs : List Proceso) (fuel : Nat) (q : Int),
      ps.map entrada = qs.map entrada →
      fifo ps fuel = fifo qs fuel ∧ lifo ps fuel = lifo qs fuel ∧
      round_robin ps q fuel = round_robin qs q fuel) ∧
    (∀ ps fuel res, fifo ps fuel = some res →
      res.map entrada = ps.map entrada) ∧
    (∀ ps fuel res, lifo ps fuel = some res →
      res.map entrada = ps.map entrada) ∧
    (∀ ps (q : Int) fuel res, round_robin ps q fuel = some res →
      res.map entrada = ps.map entrada) := by
  have hcop : ∀ (ps qs : List Proceso), ps.map entrada = qs.map entrada →
      ps.map copia = qs.map copia := by
    intro ps qs h
    rw [copia_por_entrada, copia_por_entrada, h]
  have hlen : ∀ (ps qs : List Proceso), ps.map entrada = qs.map entrada →
      ps.length = qs.length := by
    intro ps qs h
    have := congrArg List.length h
    simpa using this
  refine ⟨?_, ?_, ?_, ?_⟩
  · intro ps qs fuel q h
    have hc := hcop ps qs h
    have hl := hlen ps qs h
    refine ⟨?_, ?_, ?_⟩
    · unfold fifo
      rw [hc]
    · unfold lifo
      rw [hc]
    · unfold round_robin
      have hini : estadoInicial ps = estadoInicial qs := by
        unfold estadoInicial
        rw [hc, hl]
      rw [hini]
  · intro ps fuel res h
    rw [cicloFL_entrada runFirst_selSpec fuel (ps.map copia) 0 0 res h]
    exact entradas_copia ps
  · intro ps fuel res h
    rw [cicloFL_entrada runLast_selSpec fuel (ps.map copia) 0 0 res h]
    exact entradas_copia ps
  · intro ps q fuel res h
    obtain ⟨s', hs', hres⟩ := Option.map_eq_some'.mp h
    rw [← hres, rrLoop_entrada q fuel (estadoInicial ps) s' hs']
    exact entradas_copia ps

/-- An input record with garbage in the scheduler-output fields but the
same id, arrival and burst as scenario 1. -/
def sucio : List Proceso :=
  [{ id := "A", ti := 0, t := 5, tf := 99, T := 7, E := 7, I := 5,
     tiempo_restante := 0 }]

theorem c9_testigo :
    fifo sucio 4 = fifo escenario1 4 ∧ lifo sucio 4 = lifo escenario1 4 ∧
    round_robin sucio 2 4 = round_robin escenario1 2 4 :=
  c9_copia_privada.1 sucio escenario1 4 2 (by decide)

/-- C10: on valid inputs every completion time any scheduler assigns is
strictly positive, turnaround is at least the (positive) burst, so the
`tf`-truthiness test for "unfinished" never misclassifies a finished
process and the `turnaround = 0` sentinel branch never fires: the penalty
index always equals `t / T` exactly. -/
theorem c10_tf_positivo (ps : List Proceso) (hps : precondLista ps) :
    (∀ fuel res, fifo ps fuel = some res → ∀ p ∈ res,
      0 < p.tf ∧ 0 < p.t ∧ p.t ≤ p.T ∧ 0 < p.T ∧
        p.I = (p.t : Rat) / (p.T : Rat)) ∧
    (∀ fuel res, lifo ps fuel = some res → ∀ p ∈ res,
      0 < p.tf ∧ 0 < p.t ∧ p.t ≤ p.T ∧ 0 < p.T ∧
        p.I = (p.t : Rat) / (p.T : Rat)) ∧
    (∀ (q : Int) fuel res, 0 < q → round_robin ps q fuel = some res →
      ∀ p ∈ res, 0 < p.tf ∧ 0 < p.t ∧ p.t ≤ p.T ∧ 0 < p.T ∧
        p.I = (p.t : Rat) / (p.T : Rat)) := by
  refine ⟨?_, ?_, ?_⟩
  · intro fuel res h p hp
    obtain ⟨hterm, hent⟩ := fifo_correcto ps fuel res hps h
    obtain ⟨htf, _, _, _, htT, hI⟩ := hterm p hp
    have ht := (precond_of_entrada hent hps p hp).2
    exact ⟨htf, ht, htT, by omega, hI⟩
  · intro fuel res h p hp
    obtain ⟨hterm, hent⟩ := lifo_correcto ps fuel res hps h
    obtain ⟨htf, _, _, _, htT, hI⟩ := hterm p hp
    have ht := (precond_of_entrada hent hps p hp).2
    exact ⟨htf, ht, htT, by omega, hI⟩
  · intro q fuel res hq h p hp
    obtain ⟨hterm, hent⟩ := rr_correcto ps q fuel res hq hps h
    obtain ⟨htf, _, _, _, htT, hI⟩ := hterm p hp
    have ht := (precond_of_entrada hent hps p hp).2
    exact ⟨htf, ht, htT, by omega, hI⟩

theorem c10_testigo :
    0 < regA.tf ∧ 0 < regA.t ∧ regA.t ≤ regA.T ∧ 0 < regA.T ∧
    regA.I = (regA.t : Rat) / (regA.T : Rat) :=
  (c10_tf_positivo escenario1 (by unfold precondLista; decide)).1 4 [regA]
    (by with_unfolding_all rfl) regA (by simp)
